import Mathlib

/-!
Verification of the character-level diff refinement stage of
vscode-diff (libvscode-diff, header src/libvscode-diff/include/char_level.h).

The repository ships only the public header for this stage; the pipeline
itself (character views, alignment solvers, optimizer passes, position
translation, drivers) is modelled from the specification document, faithful
to its words, and the claims are settled against this model.
-/

namespace VD

/-- Whitespace predicate used for whitespace elision and the
whitespace-only-gap scan. -/
def isWS (c : Char) : Bool := c = ' ' || c = '\t' || c = '\n' || c = '\r'

/-- Word characters per the spec's Character View contract:
alphanumeric or underscore. -/
def isWordChar (c : Char) : Bool := c.isAlphanum || c = '_'

/-- Half-open slice [i, j) of a character list. -/
def sliceL (l : List Char) (i j : Nat) : List Char := (l.drop i).take (j - i)

theorem sliceL_self (l : List Char) (i : Nat) : sliceL l i i = [] := by
  simp [sliceL]

theorem drop_eq_slice_append (l : List Char) {i j : Nat} (h : i ≤ j) :
    l.drop i = sliceL l i j ++ l.drop j := by
  have h2 : (l.drop i).drop (j - i) = l.drop j := by
    rw [List.drop_drop]
    congr 1
    omega
  conv_lhs => rw [← List.take_append_drop (j - i) (l.drop i)]
  rw [h2]
  rfl

theorem sliceL_length {l : List Char} {i j : Nat} (hj : j ≤ l.length) :
    (sliceL l i j).length = j - i := by
  simp [sliceL]
  omega

/-- A sub-slice of a slice, expressed by drop/take on the outer slice. -/
theorem sliceL_sub (l : List Char) {i j : Nat} (p q : Nat)
    (hq : q ≤ j) :
    sliceL l (i + p) q = ((sliceL l i j).drop p).take (q - (i + p)) := by
  unfold sliceL
  rw [List.drop_take, List.drop_drop, List.take_take]
  congr 1
  omega

/-- Taking one character off the front of a slice. -/
theorem sliceL_cons {l : List Char} {i j : Nat} (hij : i < j)
    (hi : i < l.length) :
    sliceL l i j = l[i] :: sliceL l (i + 1) j := by
  unfold sliceL
  rw [List.drop_eq_getElem_cons hi]
  have : j - i = (j - (i + 1)) + 1 := by omega
  rw [this, List.take_succ_cons]

/-- Offset intervals: a half-open [s, e) range over character offsets. -/
structure Intv where
  s : Nat
  e : Nat
deriving DecidableEq, Repr

/-- A DiffRegion: one changed span, a pair of offset intervals,
one per side. -/
structure DiffRegion where
  a : Intv
  b : Intv
deriving DecidableEq, Repr

instance : Inhabited DiffRegion := ⟨⟨⟨0, 0⟩, ⟨0, 0⟩⟩⟩

/-- Join two diff regions (and the gap between them) into one. -/
def joinR (d1 d2 : DiffRegion) : DiffRegion :=
  ⟨⟨d1.a.s, d2.a.e⟩, ⟨d1.b.s, d2.b.e⟩⟩

/-- A line-level diff region (SequenceDiff in types.h): half-open line
ranges on each side. -/
structure SequenceDiff where
  aS : Nat
  aE : Nat
  bS : Nat
  bE : Nat
deriving DecidableEq, Repr

/-- Options for character-level refinement (CharLevelOptions). -/
structure CharLevelOptions where
  consider_whitespace_changes : Bool
  extend_to_subwords : Bool
  timeout_ms : Nat
deriving DecidableEq, Repr

/-- An alignment: index pairs (i, j) with a.get i = b.get j, strictly
increasing on both sides. -/
abbrev Matching := List (Nat × Nat)

/-- The matching predicate: all pairs at or after (pa, pb), strictly
increasing, in bounds, with equal characters. -/
def MatchingFrom (a b : List Char) : Nat → Nat → Matching → Prop
  | _, _, [] => True
  | pa, pb, (i, j) :: rest =>
      pa ≤ i ∧ pb ≤ j ∧ i < a.length ∧ j < b.length ∧
      a.getD i 'A' = b.getD j 'A' ∧ MatchingFrom a b (i + 1) (j + 1) rest

instance MatchingFrom.dec (a b : List Char) :
    ∀ (pa pb : Nat) (m : Matching), Decidable (MatchingFrom a b pa pb m)
  | _, _, [] => .isTrue trivial
  | pa, pb, (i, j) :: rest =>
      have : Decidable (MatchingFrom a b (i + 1) (j + 1) rest) :=
        MatchingFrom.dec a b (i + 1) (j + 1) rest
      by unfold MatchingFrom; exact inferInstance

theorem matchingFrom_mono {a b : List Char} {pa pb pa' pb' : Nat}
    {m : Matching} (h : MatchingFrom a b pa pb m)
    (ha : pa' ≤ pa) (hb : pb' ≤ pb) : MatchingFrom a b pa' pb' m := by
  cases m with
  | nil => trivial
  | cons p rest =>
      obtain ⟨i, j⟩ := p
      obtain ⟨h1, h2, h3, h4, h5, h6⟩ := h
      exact ⟨le_trans ha h1, le_trans hb h2, h3, h4, h5, h6⟩

/-! ### Alignment Solver (spec §4.2)

Modelled from the spec: the implementation of this stage is absent from
src/ (only the header `char_level.h` is shipped), so both solver paths are
modelled from the specification: an exact dynamic-programming LCS for small
inputs and a greedy Myers diagonal search with deadline polling otherwise. -/

/-- Modelled from the spec: the exact dynamic-programming LCS solver used
for small inputs. Works on the suffixes `a.drop ia`, `b.drop ib` and returns
the index pairs of a longest common subsequence. -/
def lcsGo (a b : List Char) : Nat → Nat → List Char → List Char → Matching
  | _, _, [], _ => []
  | _, _, _ :: _, [] => []
  | ia, ib, x :: xs, y :: ys =>
    if x = y then (ia, ib) :: lcsGo a b (ia + 1) (ib + 1) xs ys
    else
      let l := lcsGo a b (ia + 1) ib xs (y :: ys)
      let r := lcsGo a b ia (ib + 1) (x :: xs) ys
      if r.length ≤ l.length then l else r
termination_by _ _ xs ys => xs.length + ys.length
decreasing_by all_goals simp_wf <;> omega

/-- The LCS matching for two full character sequences. -/
def lcsIdx (a b : List Char) : Matching := lcsGo a b 0 0 a b

/-- Modelled from the spec: derive DiffRegions from the complement of an
alignment — the maximal unmatched spans between consecutive matches become
the changed regions. -/
def deriveRegions (la lb : Nat) : Nat → Nat → Matching → List DiffRegion
  | pa, pb, [] => if pa = la ∧ pb = lb then [] else [⟨⟨pa, la⟩, ⟨pb, lb⟩⟩]
  | pa, pb, (i, j) :: rest =>
      if pa = i ∧ pb = j then deriveRegions la lb (i + 1) (j + 1) rest
      else ⟨⟨pa, i⟩, ⟨pb, j⟩⟩ :: deriveRegions la lb (i + 1) (j + 1) rest

/-- One greedy "snake": extend a search path diagonally while characters
match. Matches are accumulated in reverse order. -/
def snakeExt (a b : List Char) : Nat → Nat → Nat → Matching → Nat × Nat × Matching
  | 0, x, y, m => (x, y, m)
  | fuel + 1, x, y, m =>
      if x < a.length ∧ y < b.length ∧ a.getD x 'A' = b.getD y 'A' then
        snakeExt a b fuel (x + 1) (y + 1) ((x, y) :: m)
      else (x, y, m)

/-- State of the Myers search on one diagonal: furthest point reached and
the matches of the path leading there (in reverse order). -/
structure MySt where
  x : Nat
  y : Nat
  m : Matching

/-- The diagonals explored at edit distance d: -d, -d+2, ..., d. -/
def ksRange (d : Nat) : List Int :=
  (List.range (d + 1)).map (fun i => 2 * (i : Int) - d)

/-- Advance one diagonal at the next edit distance: take the better of a
rightward move from diagonal k-1 and a downward move from k+1, then extend
with a snake. -/
def stepOne (a b : List Char) (V : Int → Option MySt) (k : Int) : Option MySt :=
  let c :=
    match (V (k - 1)).map (fun s => MySt.mk (s.x + 1) s.y s.m),
        (V (k + 1)).map (fun s => MySt.mk s.x (s.y + 1) s.m) with
    | none, none => none
    | some s, none => some s
    | none, some s => some s
    | some s1, some s2 => some (if s2.x ≤ s1.x then s1 else s2)
  c.map (fun s =>
    let r := snakeExt a b a.length s.x s.y s.m
    MySt.mk r.1 r.2.1 r.2.2)

/-- Extract a finished path from a freshly computed layer of diagonals. -/
def layerDone (la lb : Nat) (layer : List (Int × Option MySt)) : Option Matching :=
  layer.findSome? (fun p =>
    match p.2 with
    | some s => if s.x = la ∧ s.y = lb then some s.m else none
    | none => none)

/-- Merge a computed layer of diagonals back into the diagonal map. -/
def mergeLayer (layer : List (Int × Option MySt)) (V : Int → Option MySt) :
    Int → Option MySt :=
  layer.foldl (fun acc kv => fun k' => if k' = kv.1 then kv.2 else acc k') V

/-- Modelled from the spec: the Myers driver loop. Explores diagonals in
increasing edit-distance order; polls the deadline once per distance
iteration and, if it has elapsed, returns the trivial full-replace script
("best found so far", a superset of the true minimal edits) flagged as
timed out. -/
def myersLoop (a b : List Char) :
    Nat → Option Nat → Nat → (Int → Option MySt) → Matching × Bool
  | 0, _, _, _ => ([], true)
  | fuel + 1, budget, d, V =>
      if budget = some 0 then ([], true)
      else
        let layer := (ksRange d).map (fun k => (k, stepOne a b V k))
        match layerDone a.length b.length layer with
        | some m => (m.reverse, false)
        | none =>
            myersLoop a b fuel (budget.map (fun t => t - 1)) (d + 1)
              (mergeLayer layer V)

/-- Dispatch after the initial zero-distance snake: immediate success on a
full diagonal, otherwise enter the distance-iteration loop. -/
def myersStart (a b : List Char) (budget : Option Nat)
    (s0 : Nat × Nat × Matching) : Matching × Bool :=
  if s0.1 = a.length ∧ s0.2.1 = b.length then (s0.2.2.reverse, false)
  else
    myersLoop a b (a.length + b.length + 2) budget 1
      (fun k => if k = 0 then some (MySt.mk s0.1 s0.2.1 s0.2.2) else none)

/-- Modelled from the spec: greedy Myers shortest-edit-script search. The
initial zero-distance snake is followed before any deadline check, so equal
inputs never time out. -/
def myersRun (a b : List Char) (budget : Option Nat) : Matching × Bool :=
  myersStart a b budget (snakeExt a b a.length 0 0 [])

/-- The fixed small-input threshold below which the exact DP solver runs. -/
def SMALL_INPUT_THRESHOLD : Nat := 500

/-- Modelled from the spec: solver strategy selection, keyed purely on the
combined input length. -/
def alignChars (a b : List Char) (budget : Option Nat) : Matching × Bool :=
  if a.length + b.length < SMALL_INPUT_THRESHOLD then (lcsIdx a b, false)
  else myersRun a b budget

/-- The Alignment Solver: align two character sequences and derive the
changed regions from the complement of the matching. -/
def alignDiffs (a b : List Char) (budget : Option Nat) : List DiffRegion × Bool :=
  let r := alignChars a b budget
  (deriveRegions a.length b.length 0 0 r.1, r.2)

/-! ### Solver correctness: both paths return a valid matching -/

theorem drop_cons_rel {a : List Char} {ia : Nat} {x : Char} {xs : List Char}
    (h : a.drop ia = x :: xs) :
    ia < a.length ∧ a.getD ia 'A' = x ∧ a.drop (ia + 1) = xs := by
  have hlt : ia < a.length := by
    by_contra hge
    rw [List.drop_eq_nil_of_le (by omega)] at h
    exact List.noConfusion h
  rw [List.drop_eq_getElem_cons hlt] at h
  obtain ⟨h1, h2⟩ := List.cons.inj h
  refine ⟨hlt, ?_, h2⟩
  rw [List.getD_eq_getElem _ _ hlt, h1]

theorem lcsGo_matching (a b : List Char) :
    ∀ (n ia ib : Nat) (xs ys : List Char), xs.length + ys.length ≤ n →
      a.drop ia = xs → b.drop ib = ys →
      MatchingFrom a b ia ib (lcsGo a b ia ib xs ys) := by
  intro n
  induction n with
  | zero =>
      intro ia ib xs ys hn hx hy
      match xs, ys with
      | [], _ => simp [lcsGo, MatchingFrom]
      | _ :: _, _ => simp at hn
  | succ n ih =>
      intro ia ib xs ys hn hx hy
      match xs, ys with
      | [], _ => simp [lcsGo, MatchingFrom]
      | _ :: _, [] => simp [lcsGo, MatchingFrom]
      | x :: xs', y :: ys' =>
          obtain ⟨hia, hax, hxs⟩ := drop_cons_rel hx
          obtain ⟨hib, hby, hys⟩ := drop_cons_rel hy
          by_cases hxy : x = y
          · rw [lcsGo, if_pos hxy]
            refine ⟨le_refl _, le_refl _, hia, hib, ?_, ?_⟩
            · rw [hax, hby, hxy]
            · exact ih (ia + 1) (ib + 1) xs' ys'
                (by simp at hn; omega) hxs hys
          · rw [lcsGo, if_neg hxy]
            simp only []
            split
            · exact matchingFrom_mono (ih (ia + 1) ib xs' (y :: ys')
                (by simp at hn ⊢; omega) hxs hy) (by omega) (le_refl _)
            · exact matchingFrom_mono (ih ia (ib + 1) (x :: xs') ys'
                (by simp at hn ⊢; omega) hx hys) (le_refl _) (by omega)

theorem lcsIdx_matching (a b : List Char) :
    MatchingFrom a b 0 0 (lcsIdx a b) :=
  lcsGo_matching a b (a.length + b.length) 0 0 a b (le_refl _) rfl rfl

/-- Reverse-order matching accumulated by the Myers search: strictly
decreasing pairs below (x, y), in bounds, with equal characters. -/
def RevBelow (a b : List Char) : Nat → Nat → Matching → Prop
  | _, _, [] => True
  | x, y, (i, j) :: rest =>
      i < x ∧ j < y ∧ i < a.length ∧ j < b.length ∧
      a.getD i 'A' = b.getD j 'A' ∧ RevBelow a b i j rest

theorem revBelow_mono {a b : List Char} {x y x' y' : Nat} {m : Matching}
    (h : RevBelow a b x y m) (hx : x ≤ x') (hy : y ≤ y') :
    RevBelow a b x' y' m := by
  cases m with
  | nil => trivial
  | cons p rest =>
      obtain ⟨i, j⟩ := p
      obtain ⟨h1, h2, h3, h4, h5, h6⟩ := h
      exact ⟨by omega, by omega, h3, h4, h5, h6⟩

theorem snakeExt_revBelow (a b : List Char) :
    ∀ (fuel x y : Nat) (m : Matching), RevBelow a b x y m →
      RevBelow a b (snakeExt a b fuel x y m).1
        (snakeExt a b fuel x y m).2.1 (snakeExt a b fuel x y m).2.2 := by
  intro fuel
  induction fuel with
  | zero => intro x y m h; simpa [snakeExt] using h
  | succ n ih =>
      intro x y m h
      rw [snakeExt]
      split
      · next hc =>
          exact ih (x + 1) (y + 1) ((x, y) :: m)
            ⟨Nat.lt_succ_self x, Nat.lt_succ_self y, hc.1, hc.2.1, hc.2.2, h⟩
      · exact h

theorem revBelow_matchingFrom (a b : List Char) :
    ∀ (m : Matching) (x y : Nat) (rest : Matching),
      RevBelow a b x y m → MatchingFrom a b x y rest →
      MatchingFrom a b 0 0 (List.reverseAux m rest) := by
  intro m
  induction m with
  | nil =>
      intro x y rest _ hrest
      exact matchingFrom_mono hrest (Nat.zero_le _) (Nat.zero_le _)
  | cons p m' ih =>
      obtain ⟨i, j⟩ := p
      intro x y rest hrev hrest
      obtain ⟨h1, h2, h3, h4, h5, h6⟩ := hrev
      exact ih i j ((i, j) :: rest) h6
        ⟨le_refl _, le_refl _, h3, h4, h5, matchingFrom_mono hrest (by omega) (by omega)⟩

/-- Invariant of the diagonal map: every stored state carries a valid
reverse matching below its furthest point. -/
def VOk (a b : List Char) (V : Int → Option MySt) : Prop :=
  ∀ k s, V k = some s → RevBelow a b s.x s.y s.m

theorem stepOne_ok {a b : List Char} {V : Int → Option MySt}
    (hV : VOk a b V) (k : Int) :
    ∀ s, stepOne a b V k = some s → RevBelow a b s.x s.y s.m := by
  intro s hs
  cases hL : V (k - 1) with
  | none =>
      cases hU : V (k + 1) with
      | none => simp [stepOne, hL, hU] at hs
      | some u =>
          simp [stepOne, hL, hU] at hs
          have hu := hV _ _ hU
          have hu' : RevBelow a b u.x (u.y + 1) u.m := revBelow_mono hu (le_refl _) (by omega)
          subst hs
          exact snakeExt_revBelow a b a.length u.x (u.y + 1) u.m hu'
  | some l =>
      cases hU : V (k + 1) with
      | none =>
          simp [stepOne, hL, hU] at hs
          have hl := hV _ _ hL
          have hl' : RevBelow a b (l.x + 1) l.y l.m := revBelow_mono hl (by omega) (le_refl _)
          subst hs
          exact snakeExt_revBelow a b a.length (l.x + 1) l.y l.m hl'
      | some u =>
          have hl := hV _ _ hL
          have hu := hV _ _ hU
          have hl' : RevBelow a b (l.x + 1) l.y l.m := revBelow_mono hl (by omega) (le_refl _)
          have hu' : RevBelow a b u.x (u.y + 1) u.m := revBelow_mono hu (le_refl _) (by omega)
          by_cases hc : u.x ≤ l.x + 1
          · simp [stepOne, hL, hU, hc] at hs
            subst hs
            exact snakeExt_revBelow a b a.length (l.x + 1) l.y l.m hl'
          · simp [stepOne, hL, hU, hc] at hs
            subst hs
            exact snakeExt_revBelow a b a.length u.x (u.y + 1) u.m hu'

theorem mergeLayer_ok {a b : List Char} :
    ∀ (layer : List (Int × Option MySt)) (V : Int → Option MySt),
      (∀ kv ∈ layer, ∀ s, kv.2 = some s → RevBelow a b s.x s.y s.m) →
      VOk a b V → VOk a b (mergeLayer layer V) := by
  intro layer
  induction layer with
  | nil => intro V _ hV; exact hV
  | cons kv rest ih =>
      intro V hlay hV
      have hupd : VOk a b (fun k' => if k' = kv.1 then kv.2 else V k') := by
        intro k s hks
        by_cases hk : k = kv.1
        · simp only [if_pos hk] at hks
          exact hlay kv (List.mem_cons_self _ _) s hks
        · simp only [if_neg hk] at hks
          exact hV k s hks
      exact ih _ (fun p hp => hlay p (List.mem_cons_of_mem _ hp)) hupd

theorem layerDone_ok {a b : List Char} {layer : List (Int × Option MySt)}
    (hlay : ∀ kv ∈ layer, ∀ s, kv.2 = some s → RevBelow a b s.x s.y s.m)
    {m : Matching} (h : layerDone a.length b.length layer = some m) :
    RevBelow a b a.length b.length m := by
  obtain ⟨p, hp, hfp⟩ := List.exists_of_findSome?_eq_some h
  cases hs : p.2 with
  | none => rw [hs] at hfp; exact Option.noConfusion hfp
  | some s =>
      rw [hs] at hfp
      simp only [] at hfp
      split at hfp
      · next hc =>
          obtain ⟨hx, hy⟩ := hc
          have := hlay p hp s hs
          rw [hx, hy] at this
          rw [Option.some.inj hfp] at this
          exact this
      · exact Option.noConfusion hfp

theorem myersLoop_matching (a b : List Char) :
    ∀ (fuel : Nat) (budget : Option Nat) (d : Nat) (V : Int → Option MySt),
      VOk a b V →
      MatchingFrom a b 0 0 (myersLoop a b fuel budget d V).1 := by
  intro fuel
  induction fuel with
  | zero => intro budget d V _; simp [myersLoop, MatchingFrom]
  | succ n ih =>
      intro budget d V hV
      rw [myersLoop]
      split
      · simp [MatchingFrom]
      · have hlay : ∀ kv ∈ (ksRange d).map (fun k => (k, stepOne a b V k)),
            ∀ s, kv.2 = some s → RevBelow a b s.x s.y s.m := by
          intro kv hkv s hkvs
          obtain ⟨k, _, rfl⟩ := List.mem_map.mp hkv
          exact stepOne_ok hV k s hkvs
        cases hdone : layerDone a.length b.length
            ((ksRange d).map (fun k => (k, stepOne a b V k))) with
        | some m =>
            simp only [hdone]
            have hrb := layerDone_ok hlay hdone
            exact revBelow_matchingFrom a b m a.length b.length [] hrb trivial
        | none =>
            simp only [hdone]
            exact ih _ _ _ (mergeLayer_ok _ V hlay hV)

theorem myersStart_matching (a b : List Char) (budget : Option Nat)
    (s0 : Nat × Nat × Matching) (hs0 : RevBelow a b s0.1 s0.2.1 s0.2.2) :
    MatchingFrom a b 0 0 (myersStart a b budget s0).1 := by
  unfold myersStart
  split
  · next hc =>
      exact revBelow_matchingFrom a b s0.2.2 a.length b.length []
        (by rw [← hc.1, ← hc.2]; exact hs0) trivial
  · apply myersLoop_matching
    intro k s hks
    by_cases hk : k = 0
    · simp only [if_pos hk] at hks
      rw [← Option.some.inj hks]
      exact hs0
    · simp only [if_neg hk] at hks
      exact Option.noConfusion hks

theorem myersRun_matching (a b : List Char) (budget : Option Nat) :
    MatchingFrom a b 0 0 (myersRun a b budget).1 :=
  myersStart_matching a b budget _ (snakeExt_revBelow a b a.length 0 0 [] trivial)

theorem alignChars_matching (a b : List Char) (budget : Option Nat) :
    MatchingFrom a b 0 0 (alignChars a b budget).1 := by
  unfold alignChars
  split
  · exact lcsIdx_matching a b
  · exact myersRun_matching a b budget

/-! ### The DiffRegion sequence invariants (spec §3, §4.2, §4.3) -/

/-- One side of a DiffRegion sequence is sorted ascending and pairwise
non-overlapping. -/
def ChainOf (f : DiffRegion → Intv) (ds : List DiffRegion) : Prop :=
  List.Chain' (fun d1 d2 => (f d1).e ≤ (f d2).s) ds

/-- One side of a DiffRegion sequence has well-formed intervals within the
content bounds. -/
def BoundsOf (f : DiffRegion → Intv) (len : Nat) (ds : List DiffRegion) : Prop :=
  ∀ d ∈ ds, (f d).s ≤ (f d).e ∧ (f d).e ≤ len

/-- The sort/non-overlap invariant, on each side independently. -/
def ValidSeq (la lb : Nat) (ds : List DiffRegion) : Prop :=
  ChainOf DiffRegion.a ds ∧ BoundsOf DiffRegion.a la ds ∧
  ChainOf DiffRegion.b ds ∧ BoundsOf DiffRegion.b lb ds

instance ChainOf.dec (f : DiffRegion → Intv) :
    ∀ ds : List DiffRegion, Decidable (ChainOf f ds)
  | [] => .isTrue List.chain'_nil
  | [d] => .isTrue (List.chain'_singleton d)
  | d1 :: d2 :: t =>
      match Nat.decLe (f d1).e (f d2).s, ChainOf.dec f (d2 :: t) with
      | .isTrue h1, .isTrue h2 => .isTrue (List.chain'_cons.mpr ⟨h1, h2⟩)
      | .isFalse h1, _ => .isFalse (fun hc => h1 (List.chain'_cons.mp hc).1)
      | _, .isFalse h2 => .isFalse (fun hc => h2 (List.chain'_cons.mp hc).2)

instance BoundsOf.dec (f : DiffRegion → Intv) (len : Nat) (ds : List DiffRegion) :
    Decidable (BoundsOf f len ds) :=
  inferInstanceAs (Decidable (∀ d ∈ ds, (f d).s ≤ (f d).e ∧ (f d).e ≤ len))

instance ValidSeq.dec (la lb : Nat) (ds : List DiffRegion) :
    Decidable (ValidSeq la lb ds) :=
  inferInstanceAs (Decidable (ChainOf DiffRegion.a ds ∧
    BoundsOf DiffRegion.a la ds ∧ ChainOf DiffRegion.b ds ∧
    BoundsOf DiffRegion.b lb ds))

/-- The complement spans of a region sequence on one side: the gaps between
consecutive regions plus the spans before the first and after the last. -/
def gapsOf (f : DiffRegion → Intv) (content : List Char) :
    Nat → List DiffRegion → List (List Char)
  | pos, [] => [sliceL content pos content.length]
  | pos, d :: ds => sliceL content pos (f d).s :: gapsOf f content (f d).e ds

/-- Concatenation, in order, of the unchanged gaps and the changed text of
each region on one side. -/
def reconOf (f : DiffRegion → Intv) (content : List Char) :
    Nat → List DiffRegion → List Char
  | pos, [] => sliceL content pos content.length
  | pos, d :: ds =>
      sliceL content pos (f d).s ++ sliceL content (f d).s (f d).e ++
      reconOf f content (f d).e ds

/-- Start offset of the first region on one side, or the content length. -/
def firstBndOf (f : DiffRegion → Intv) (len : Nat) : List DiffRegion → Nat
  | [] => len
  | d :: _ => (f d).s

/-- The gaps after the first one. -/
def gapsRestOf (f : DiffRegion → Intv) (content : List Char) :
    List DiffRegion → List (List Char)
  | [] => []
  | d :: ds => gapsOf f content (f d).e ds

theorem gapsOf_decomp (f : DiffRegion → Intv) (content : List Char)
    (pos : Nat) (ds : List DiffRegion) :
    gapsOf f content pos ds =
      sliceL content pos (firstBndOf f content.length ds) ::
        gapsRestOf f content ds := by
  cases ds <;> rfl

theorem sliceL_to_end (l : List Char) (pos : Nat) :
    sliceL l pos l.length = l.drop pos := by
  unfold sliceL
  apply List.take_of_length_le
  simp

/-- Round-trip: for a sorted, in-bounds region sequence, the interleaved
gaps and region texts rebuild the suffix of the content from pos. -/
theorem reconOf_drop (f : DiffRegion → Intv) (content : List Char) :
    ∀ (ds : List DiffRegion) (pos : Nat), pos ≤ content.length →
      ChainOf f ds → BoundsOf f content.length ds →
      pos ≤ firstBndOf f content.length ds →
      reconOf f content pos ds = content.drop pos := by
  intro ds
  induction ds with
  | nil =>
      intro pos _ _ _ _
      exact sliceL_to_end content pos
  | cons d ds ih =>
      intro pos hpos hch hb hfst
      have hbd := hb d (List.mem_cons_self _ _)
      have hch' : ChainOf f ds := List.Chain'.tail hch
      have hb' : BoundsOf f content.length ds :=
        fun d' hd' => hb d' (List.mem_cons_of_mem _ hd')
      have hfst' : (f d).e ≤ firstBndOf f content.length ds := by
        cases ds with
        | nil => exact hbd.2
        | cons d2 ds2 =>
            exact (List.chain'_cons.mp hch).1
      have hrec : reconOf f content ((f d).e) ds = content.drop ((f d).e) :=
        ih ((f d).e) hbd.2 hch' hb' hfst'
      show sliceL content pos (f d).s ++ sliceL content (f d).s (f d).e ++
          reconOf f content ((f d).e) ds = content.drop pos
      have hfst0 : pos ≤ (f d).s := hfst
      rw [hrec, List.append_assoc,
        ← drop_eq_slice_append content hbd.1,
        ← drop_eq_slice_append content hfst0]

/-! ### Validity and complement equality of derived regions -/

theorem derive_valid (a b : List Char) :
    ∀ (m : Matching) (pa pb : Nat), MatchingFrom a b pa pb m →
      pa ≤ a.length → pb ≤ b.length →
      (ChainOf DiffRegion.a (deriveRegions a.length b.length pa pb m) ∧
       BoundsOf DiffRegion.a a.length (deriveRegions a.length b.length pa pb m)) ∧
      (ChainOf DiffRegion.b (deriveRegions a.length b.length pa pb m) ∧
       BoundsOf DiffRegion.b b.length (deriveRegions a.length b.length pa pb m)) ∧
      (∀ d ∈ deriveRegions a.length b.length pa pb m,
        pa ≤ d.a.s ∧ pb ≤ d.b.s) := by
  intro m
  induction m with
  | nil =>
      intro pa pb _ hpa hpb
      rw [deriveRegions]
      split
      · exact ⟨⟨List.chain'_nil, by simp [BoundsOf]⟩,
          ⟨List.chain'_nil, by simp [BoundsOf]⟩, by simp⟩
      · refine ⟨⟨?_, ?_⟩, ⟨?_, ?_⟩, ?_⟩
        · exact List.chain'_singleton _
        · intro d hd
          rw [List.mem_singleton] at hd
          subst hd
          exact ⟨hpa, le_refl _⟩
        · exact List.chain'_singleton _
        · intro d hd
          rw [List.mem_singleton] at hd
          subst hd
          exact ⟨hpb, le_refl _⟩
        · intro d hd
          rw [List.mem_singleton] at hd
          subst hd
          exact ⟨le_refl _, le_refl _⟩
  | cons p rest ih =>
      obtain ⟨i, j⟩ := p
      intro pa pb hm hpa hpb
      obtain ⟨h1, h2, h3, h4, h5, h6⟩ := hm
      have hrec := ih (i + 1) (j + 1) h6 (by omega) (by omega)
      rw [deriveRegions]
      split
      · next hc =>
          refine ⟨hrec.1, hrec.2.1, ?_⟩
          intro d hd
          have := hrec.2.2 d hd
          omega
      · refine ⟨⟨?_, ?_⟩, ⟨?_, ?_⟩, ?_⟩
        · unfold ChainOf
          rw [List.chain'_cons']
          constructor
          · intro y hy
            have hym := List.mem_of_mem_head? hy
            have := hrec.2.2 y hym
            show i ≤ y.a.s
            omega
          · exact hrec.1.1
        · intro d hd
          rcases List.mem_cons.mp hd with hd | hd
          · subst hd
            refine ⟨h1, ?_⟩
            show i ≤ a.length
            omega
          · exact hrec.1.2 d hd
        · unfold ChainOf
          rw [List.chain'_cons']
          constructor
          · intro y hy
            have hym := List.mem_of_mem_head? hy
            have := hrec.2.2 y hym
            show j ≤ y.b.s
            omega
          · exact hrec.2.1.1
        · intro d hd
          rcases List.mem_cons.mp hd with hd | hd
          · subst hd
            refine ⟨h2, ?_⟩
            show j ≤ b.length
            omega
          · exact hrec.2.1.2 d hd
        · intro d hd
          rcases List.mem_cons.mp hd with hd | hd
          · subst hd
            exact ⟨le_refl _, le_refl _⟩
          · have := hrec.2.2 d hd
            omega

theorem derive_firstBnd (a b : List Char) :
    ∀ (m : Matching) (pa pb : Nat), MatchingFrom a b pa pb m →
      pa ≤ a.length → pb ≤ b.length →
      pa ≤ firstBndOf DiffRegion.a a.length
          (deriveRegions a.length b.length pa pb m) ∧
      pb ≤ firstBndOf DiffRegion.b b.length
          (deriveRegions a.length b.length pa pb m) := by
  intro m
  induction m with
  | nil =>
      intro pa pb _ hpa hpb
      rw [deriveRegions]
      split
      · exact ⟨hpa, hpb⟩
      · exact ⟨le_refl _, le_refl _⟩
  | cons p rest ih =>
      obtain ⟨i, j⟩ := p
      intro pa pb hm hpa hpb
      obtain ⟨h1, h2, h3, h4, h5, h6⟩ := hm
      rw [deriveRegions]
      split
      · next hc =>
          have := ih (i + 1) (j + 1) h6 (by omega) (by omega)
          exact ⟨by omega, by omega⟩
      · exact ⟨le_refl _, le_refl _⟩

theorem derive_gaps_eq (a b : List Char) :
    ∀ (m : Matching) (pa pb : Nat), MatchingFrom a b pa pb m →
      pa ≤ a.length → pb ≤ b.length →
      gapsOf DiffRegion.a a pa (deriveRegions a.length b.length pa pb m) =
      gapsOf DiffRegion.b b pb (deriveRegions a.length b.length pa pb m) := by
  intro m
  induction m with
  | nil =>
      intro pa pb _ hpa hpb
      rw [deriveRegions]
      split
      · next hc =>
          show [sliceL a pa a.length] = [sliceL b pb b.length]
          rw [hc.1, hc.2, sliceL_self, sliceL_self]
      · show sliceL a pa pa :: [sliceL a a.length a.length] =
          sliceL b pb pb :: [sliceL b b.length b.length]
        rw [sliceL_self, sliceL_self, sliceL_self, sliceL_self]
  | cons p rest ih =>
      obtain ⟨i, j⟩ := p
      intro pa pb hm hpa hpb
      obtain ⟨h1, h2, h3, h4, h5, h6⟩ := hm
      have key : gapsOf DiffRegion.a a i
            (deriveRegions a.length b.length (i + 1) (j + 1) rest) =
          gapsOf DiffRegion.b b j
            (deriveRegions a.length b.length (i + 1) (j + 1) rest) := by
        have hih := ih (i + 1) (j + 1) h6 (by omega) (by omega)
        have hfb := derive_firstBnd a b rest (i + 1) (j + 1) h6 (by omega) (by omega)
        rw [gapsOf_decomp, gapsOf_decomp] at hih ⊢
        obtain ⟨hhd, htl⟩ := List.cons.inj hih
        have hdecA : sliceL a i (firstBndOf DiffRegion.a a.length
            (deriveRegions a.length b.length (i + 1) (j + 1) rest)) =
            a[i] :: sliceL a (i + 1) (firstBndOf DiffRegion.a a.length
              (deriveRegions a.length b.length (i + 1) (j + 1) rest)) :=
          sliceL_cons (by omega) h3
        have hdecB : sliceL b j (firstBndOf DiffRegion.b b.length
            (deriveRegions a.length b.length (i + 1) (j + 1) rest)) =
            b[j] :: sliceL b (j + 1) (firstBndOf DiffRegion.b b.length
              (deriveRegions a.length b.length (i + 1) (j + 1) rest)) :=
          sliceL_cons (by omega) h4
        rw [hdecA, hdecB, hhd, htl]
        congr 2
        rw [List.getD_eq_getElem _ _ h3, List.getD_eq_getElem _ _ h4] at h5
        exact h5
      rw [deriveRegions]
      split
      · next hc =>
          rw [hc.1, hc.2]
          exact key
      · show sliceL a pa pa :: gapsOf DiffRegion.a a i _ =
          sliceL b pb pb :: gapsOf DiffRegion.b b j _
        rw [sliceL_self, sliceL_self]
        rw [key]

/-! ### Diff Optimizer (spec §4.3)

Modelled from the spec: a fixed-order chain of boundary-shifting and merging
passes over the DiffRegion sequence. -/

/-- Naturalness score of a boundary offset: content edges and offsets next
to non-word characters are preferred over mid-word boundaries. -/
def boundaryScore (l : List Char) (i : Nat) : Nat :=
  (if i = 0 || l.length ≤ i then 1
   else if isWordChar (l.getD (i - 1) 'A') then 0 else 1) +
  (if l.length ≤ i then 1
   else if isWordChar (l.getD i 'A') then 0 else 1)

/-- Naturalness score of a whole candidate region split. -/
def regionScore (a b : List Char) (d : DiffRegion) : Nat :=
  boundaryScore a d.a.s + boundaryScore a d.a.e +
  boundaryScore b d.b.s + boundaryScore b d.b.e

/-- Shift a region left by t on both sides. -/
def shiftLReg (d : DiffRegion) (t : Nat) : DiffRegion :=
  ⟨⟨d.a.s - t, d.a.e - t⟩, ⟨d.b.s - t, d.b.e - t⟩⟩

/-- Shift a region right by t on both sides. -/
def shiftRReg (d : DiffRegion) (t : Nat) : DiffRegion :=
  ⟨⟨d.a.s + t, d.a.e + t⟩, ⟨d.b.s + t, d.b.e + t⟩⟩

/-- A candidate shifted region is admissible when it keeps within the
surrounding unchanged gaps and the complement slices against its neighbours
stay byte-identical across both views (the equal-cost requirement). -/
def okShift (a b : List Char) (loA loB hiA hiB : Nat) (c : DiffRegion) : Bool :=
  decide (loA ≤ c.a.s ∧ c.a.s ≤ c.a.e ∧ c.a.e ≤ hiA ∧
    loB ≤ c.b.s ∧ c.b.s ≤ c.b.e ∧ c.b.e ≤ hiB ∧
    sliceL a loA c.a.s = sliceL b loB c.b.s ∧
    sliceL a c.a.e hiA = sliceL b c.b.e hiB)

/-- Best-scoring candidate, defaulting to the unshifted region. -/
def pickBest (score : DiffRegion → Nat) :
    List DiffRegion → DiffRegion → DiffRegion
  | [], dflt => dflt
  | c :: rest, dflt =>
      pickBest score rest (if score dflt < score c then c else dflt)

/-- Choose the admissible equal-cost shift with the most natural
boundaries for one region. -/
def chooseShift (a b : List Char) (loA loB hiA hiB : Nat) (d : DiffRegion) :
    DiffRegion :=
  let cands :=
    ((List.range (min (d.a.s - loA) (d.b.s - loB) + 1)).map (shiftLReg d) ++
     (List.range (min (hiA - d.a.e) (hiB - d.b.e) + 1)).map (shiftRReg d)).filter
      (okShift a b loA loB hiA hiB)
  pickBest (regionScore a b) cands d

/-- Left-to-right boundary optimization walk: each region may shift within
the gap up to its (already optimized) predecessor and its original
successor. -/
def osdGo (a b : List Char) : Nat → Nat → List DiffRegion → List DiffRegion
  | _, _, [] => []
  | loA, loB, [d] => [chooseShift a b loA loB a.length b.length d]
  | loA, loB, d1 :: d2 :: rest =>
      let d1' := chooseShift a b loA loB d2.a.s d2.b.s d1
      d1' :: osdGo a b d1'.a.e d1'.b.e (d2 :: rest)

/-- Modelled from the spec: boundary optimization (optimizeSequenceDiffs),
pass 1 of the Optimizer — shift regions by equal-cost deltas within the
surrounding gaps towards more natural boundaries. -/
def optimizeSequenceDiffs (a b : List Char) (ds : List DiffRegion) :
    List DiffRegion :=
  osdGo a b 0 0 ds

/-- Length of the maximal run of characters satisfying w immediately
before off, not reaching below lo. -/
def runBwd (w : Char → Bool) (l : List Char) (lo : Nat) : Nat → Nat
  | 0 => 0
  | off + 1 =>
      if lo ≤ off ∧ off < l.length ∧ w (l.getD off 'A') = true then
        runBwd w l lo off + 1
      else 0

/-- Length of the maximal run of characters satisfying w from off onward,
staying below hi (fuel-driven). -/
def runFwd (w : Char → Bool) (l : List Char) (hi : Nat) : Nat → Nat → Nat
  | 0, _ => 0
  | fuel + 1, off =>
      if off < hi ∧ off < l.length ∧ w (l.getD off 'A') = true then
        runFwd w l hi fuel (off + 1) + 1
      else 0

/-- Desired left extension for word extension: when the word at the start
boundary continues into the region (so the covered gap text is not an
independent unchanged word), take the word-character run in the gap just
before the region, symmetric on both sides. -/
def wordExtL (a b : List Char) (peA peB : Nat) (d : DiffRegion) : Nat :=
  if (d.a.s < d.a.e && d.a.s < a.length && isWordChar (a.getD d.a.s 'A')) ||
     (d.b.s < d.b.e && d.b.s < b.length && isWordChar (b.getD d.b.s 'A')) then
    min (runBwd isWordChar a peA d.a.s) (runBwd isWordChar b peB d.b.s)
  else 0

/-- Desired right extension for word extension, mirror of wordExtL. -/
def wordExtR (a b : List Char) (nA nB : Nat) (d : DiffRegion) : Nat :=
  if (d.a.s < d.a.e && d.a.e - 1 < a.length && isWordChar (a.getD (d.a.e - 1) 'A')) ||
     (d.b.s < d.b.e && d.b.e - 1 < b.length && isWordChar (b.getD (d.b.e - 1) 'A')) then
    min (runFwd isWordChar a nA (nA - d.a.e) d.a.e)
        (runFwd isWordChar b nB (nB - d.b.e) d.b.e)
  else 0

/-- Sub-word stop between two characters: lowercase to uppercase, or a
digit/letter transition (CamelCase and snake_case granularity). -/
def subBreak (c1 c2 : Char) : Bool :=
  (c1.isLower && c2.isUpper) || (c1.isDigit && c2.isAlpha) ||
  (c1.isAlpha && c2.isDigit)

/-- Backward sub-word run: word characters with no sub-word stop. -/
def subRunBwd (l : List Char) (lo : Nat) : Nat → Nat
  | 0 => 0
  | off + 1 =>
      if lo ≤ off ∧ off < l.length ∧ isWordChar (l.getD off 'A') = true ∧
          ¬(off + 1 < l.length ∧
            subBreak (l.getD off 'A') (l.getD (off + 1) 'A') = true) then
        subRunBwd l lo off + 1
      else 0

/-- Forward sub-word run: word characters with no sub-word stop. -/
def subRunFwd (l : List Char) (hi : Nat) : Nat → Nat → Nat
  | 0, _ => 0
  | fuel + 1, off =>
      if off < hi ∧ off < l.length ∧ isWordChar (l.getD off 'A') = true ∧
          ¬(0 < off ∧ subBreak (l.getD (off - 1) 'A') (l.getD off 'A') = true) then
        subRunFwd l hi fuel (off + 1) + 1
      else 0

/-- Desired left extension at sub-word granularity. -/
def subwordExtL (a b : List Char) (peA peB : Nat) (d : DiffRegion) : Nat :=
  if (d.a.s < d.a.e && d.a.s < a.length && isWordChar (a.getD d.a.s 'A')) ||
     (d.b.s < d.b.e && d.b.s < b.length && isWordChar (b.getD d.b.s 'A')) then
    min (subRunBwd a peA d.a.s) (subRunBwd b peB d.b.s)
  else 0

/-- Desired right extension at sub-word granularity. -/
def subwordExtR (a b : List Char) (nA nB : Nat) (d : DiffRegion) : Nat :=
  if (d.a.s < d.a.e && d.a.e - 1 < a.length && isWordChar (a.getD (d.a.e - 1) 'A')) ||
     (d.b.s < d.b.e && d.b.e - 1 < b.length && isWordChar (b.getD (d.b.e - 1) 'A')) then
    min (subRunFwd a (nA - d.a.e) nA d.a.e) (subRunFwd b (nB - d.b.e) nB d.b.e)
  else 0

/-- The left extension amount actually applied: the desired amount clamped
into the gap down to the previous (already extended) region. -/
def extAmtL (extL : List Char → List Char → Nat → Nat → DiffRegion → Nat)
    (a b : List Char) (peA peB : Nat) (d : DiffRegion) : Nat :=
  min (extL a b peA peB d) (min (d.a.s - peA) (d.b.s - peB))

/-- The right extension amount actually applied: the desired amount clamped
into the gap up to the next region. -/
def extAmtR (extR : List Char → List Char → Nat → Nat → DiffRegion → Nat)
    (a b : List Char) (nA nB : Nat) (d : DiffRegion) : Nat :=
  min (extR a b nA nB d) (min (nA - d.a.e) (nB - d.b.e))

/-- One region grown by dL to the left and dR to the right, by the same
amounts on both sides. -/
def wecReg (dL dR : Nat) (d : DiffRegion) : DiffRegion :=
  ⟨⟨d.a.s - dL, d.a.e + dR⟩, ⟨d.b.s - dL, d.b.e + dR⟩⟩

/-- Modelled from the spec: the token-boundary extension walk. Each region
grows left and right into its neighbouring unchanged gaps by the same
amount on both sides, clamped so it never crosses the previous (already
extended) or the next region. -/
def wecGo (extL extR : List Char → List Char → Nat → Nat → DiffRegion → Nat)
    (a b : List Char) : Nat → Nat → List DiffRegion → List DiffRegion
  | _, _, [] => []
  | peA, peB, d :: rest =>
      wecReg (extAmtL extL a b peA peB d)
        (extAmtR extR a b (firstBndOf DiffRegion.a a.length rest)
          (firstBndOf DiffRegion.b b.length rest) d) d ::
      wecGo extL extR a b
        (d.a.e + extAmtR extR a b (firstBndOf DiffRegion.a a.length rest)
          (firstBndOf DiffRegion.b b.length rest) d)
        (d.b.e + extAmtR extR a b (firstBndOf DiffRegion.a a.length rest)
          (firstBndOf DiffRegion.b b.length rest) d)
        rest

/-- Merge a run of regions left to right, joining whenever the predicate
accepts the (already merged) left region and the next one. -/
def mergeFold (p : DiffRegion → DiffRegion → Bool) :
    DiffRegion → List DiffRegion → List DiffRegion
  | last, [] => [last]
  | last, cur :: rest =>
      if p last cur then mergeFold p (joinR last cur) rest
      else last :: mergeFold p cur rest

/-- One left-to-right merge scan over the whole sequence. -/
def mergeAdj (p : DiffRegion → DiffRegion → Bool) :
    List DiffRegion → List DiffRegion
  | [] => []
  | d :: ds => mergeFold p d ds

/-- Regions that have become adjacent (zero-width gap on both sides). -/
def touchPred (d1 d2 : DiffRegion) : Bool :=
  decide (d1.a.e = d2.a.s ∧ d1.b.e = d2.b.s)

/-- Modelled from the spec: pass 2, word extension
(extendDiffsToEntireWordIfAppropriate): grow regions to word boundaries and
merge regions that became adjacent. -/
def extendDiffsToEntireWord (a b : List Char) (ds : List DiffRegion) :
    List DiffRegion :=
  mergeAdj touchPred (wecGo wordExtL wordExtR a b 0 0 ds)

/-- Modelled from the spec: pass 3, sub-word extension (the same walk at
sub-word granularity, only when extend_to_subwords is set). -/
def extendDiffsToSubwords (a b : List Char) (ds : List DiffRegion) :
    List DiffRegion :=
  mergeAdj touchPred (wecGo subwordExtL subwordExtR a b 0 0 ds)

/-- The short-match cutoff: unchanged gaps of at most this many characters
between two diffs are treated as noise. -/
def SHORT_MATCH_MAX_GAP : Nat := 2

/-- Merge predicate of the short-match removal pass: the unchanged gap
strictly between the two regions is at most 2 characters long. -/
def shortGapPred (d1 d2 : DiffRegion) : Bool :=
  decide (d2.a.s - d1.a.e ≤ SHORT_MATCH_MAX_GAP)

/-- Modelled from the spec: pass 4, short-match removal (removeShortMatches).
A single left-to-right scan suffices because joining preserves the gap to
the next region. -/
def removeShortMatches (ds : List DiffRegion) : List DiffRegion :=
  mergeAdj shortGapPred ds

/-- The minimum length for a region to count as "long" in the long-diff gap
merge heuristic (behavioral constant, preserved as a named constant). -/
def LONG_DIFF_MIN_LENGTH : Nat := 15

/-- The ratio by which both regions must dominate the gap between them for
the long-diff gap merge to fire. -/
def LONG_DIFF_GAP_RATIO : Nat := 4

/-- Merge predicate of the long-diff gap merge: both regions individually
long, and the gap short relative to both regions' lengths. -/
def longPairPred (d1 d2 : DiffRegion) : Bool :=
  decide (LONG_DIFF_MIN_LENGTH ≤ max (d1.a.e - d1.a.s) (d1.b.e - d1.b.s) ∧
    LONG_DIFF_MIN_LENGTH ≤ max (d2.a.e - d2.a.s) (d2.b.e - d2.b.s) ∧
    (d2.a.s - d1.a.e) * LONG_DIFF_GAP_RATIO ≤
      min (max (d1.a.e - d1.a.s) (d1.b.e - d1.b.s))
        (max (d2.a.e - d2.a.s) (d2.b.e - d2.b.s)))

/-- Merge scans repeated to a fixed point (merging enlarges regions, which
can enable further merges of this ratio-based predicate). -/
def mergeFix (p : DiffRegion → DiffRegion → Bool) :
    Nat → List DiffRegion → List DiffRegion
  | 0, ds => ds
  | fuel + 1, ds =>
      if mergeAdj p ds = ds then ds else mergeFix p fuel (mergeAdj p ds)

/-- Modelled from the spec: pass 5, the long-diff gap merge
(removeVeryShortMatchingTextBetweenLongDiffs). -/
def removeVeryShortMatchingTextBetweenLongDiffs (ds : List DiffRegion) :
    List DiffRegion :=
  mergeFix longPairPred ds.length ds

/-- Pass 3 runs only when requested by the options. -/
def maybeSubwords (opts : CharLevelOptions) (a b : List Char)
    (ds : List DiffRegion) : List DiffRegion :=
  if opts.extend_to_subwords then extendDiffsToSubwords a b ds else ds

/-- The full fixed-order Optimizer chain (spec §4.3, passes 1-5). -/
def optimizeDiffs (opts : CharLevelOptions) (a b : List Char)
    (ds : List DiffRegion) : List DiffRegion :=
  removeVeryShortMatchingTextBetweenLongDiffs
    (removeShortMatches
      (maybeSubwords opts a b
        (extendDiffsToEntireWord a b
          (optimizeSequenceDiffs a b ds))))

/-! ### Properties of the merge scans -/

/-- Region containment (one region covers another on both sides). -/
def ContainedIn (d d' : DiffRegion) : Prop :=
  d'.a.s ≤ d.a.s ∧ d.a.e ≤ d'.a.e ∧ d'.b.s ≤ d.b.s ∧ d.b.e ≤ d'.b.e

instance ContainedIn.dec (d d' : DiffRegion) : Decidable (ContainedIn d d') := by
  unfold ContainedIn; infer_instance

theorem chain'_cons_of_firstBnd {f : DiffRegion → Intv} {len : Nat}
    {c : DiffRegion} {l : List DiffRegion} (hch : ChainOf f l)
    (hle : (f c).e ≤ firstBndOf f len l) : ChainOf f (c :: l) := by
  cases l with
  | nil => exact List.chain'_singleton c
  | cons d t => exact List.chain'_cons.mpr ⟨hle, hch⟩

theorem firstBnd_le {f : DiffRegion → Intv} {len : Nat} {ds : List DiffRegion}
    (hb : BoundsOf f len ds) : firstBndOf f len ds ≤ len := by
  cases ds with
  | nil => exact le_refl _
  | cons d t =>
      have := hb d (List.mem_cons_self _ _)
      calc (f d).s ≤ (f d).e := this.1
        _ ≤ len := this.2

theorem mergeFold_decomp (p : DiffRegion → DiffRegion → Bool) :
    ∀ (ds : List DiffRegion) (last : DiffRegion),
      ∃ h t, mergeFold p last ds = h :: t ∧ h.a.s = last.a.s ∧
        h.b.s = last.b.s := by
  intro ds
  induction ds with
  | nil => intro last; exact ⟨last, [], rfl, rfl, rfl⟩
  | cons cur rest ih =>
      intro last
      rw [mergeFold]
      split
      · obtain ⟨h, t, he, h1, h2⟩ := ih (joinR last cur)
        exact ⟨h, t, he, h1, h2⟩
      · exact ⟨last, mergeFold p cur rest, rfl, rfl, rfl⟩

/-- mergeFold preserves the sort/non-overlap chain and the bounds on one
side (f is a side projection; joinR takes the left start and right end on
both sides). -/
theorem mergeFold_side (p : DiffRegion → DiffRegion → Bool)
    (f : DiffRegion → Intv) (len : Nat)
    (hj : ∀ d1 d2, f (joinR d1 d2) = Intv.mk (f d1).s (f d2).e) :
    ∀ (ds : List DiffRegion) (last : DiffRegion),
      ChainOf f (last :: ds) → BoundsOf f len (last :: ds) →
      ChainOf f (mergeFold p last ds) ∧
      BoundsOf f len (mergeFold p last ds) ∧
      (f (mergeFold p last ds).headI).s = (f last).s ∧
      mergeFold p last ds ≠ [] := by
  intro ds
  induction ds with
  | nil =>
      intro last hch hb
      refine ⟨List.chain'_singleton _, ?_, rfl, by simp [mergeFold]⟩
      intro d hd
      rw [mergeFold] at hd
      exact hb d hd
  | cons cur rest ih =>
      intro last hch hb
      have hrel : (f last).e ≤ (f cur).s := (List.chain'_cons.mp hch).1
      have hch2 : ChainOf f (cur :: rest) := (List.chain'_cons.mp hch).2
      have hblast := hb last (List.mem_cons_self _ _)
      have hbcur := hb cur (List.mem_cons_of_mem _ (List.mem_cons_self _ _))
      rw [mergeFold]
      split
      · have hchJ : ChainOf f (joinR last cur :: rest) := by
          cases rest with
          | nil => exact List.chain'_singleton _
          | cons r t =>
              refine List.chain'_cons.mpr ⟨?_, (List.chain'_cons.mp hch2).2⟩
              rw [hj]
              exact (List.chain'_cons.mp hch2).1
        have hbJ : BoundsOf f len (joinR last cur :: rest) := by
          intro d hd
          rcases List.mem_cons.mp hd with hd | hd
          · subst hd
            rw [hj]
            constructor
            · calc (f last).s ≤ (f last).e := hblast.1
                _ ≤ (f cur).s := hrel
                _ ≤ (f cur).e := hbcur.1
            · exact hbcur.2
          · exact hb d (List.mem_cons_of_mem _ (List.mem_cons_of_mem _ hd))
        obtain ⟨hc, hbo, hhd, hne⟩ := ih (joinR last cur) hchJ hbJ
        refine ⟨hc, hbo, ?_, hne⟩
        rw [hhd, hj]
      · obtain ⟨hc, hbo, hhd, hne⟩ := ih cur hch2
          (fun d hd => hb d (List.mem_cons_of_mem _ hd))
        refine ⟨?_, ?_, rfl, by simp⟩
        · cases he : mergeFold p cur rest with
          | nil => exact absurd he hne
          | cons h t =>
              refine List.chain'_cons.mpr ⟨?_, he ▸ hc⟩
              have : (f h).s = (f cur).s := by
                rw [← hhd, he]
                rfl
              rw [this]
              exact hrel
        · intro d hd
          rcases List.mem_cons.mp hd with hd | hd
          · subst hd; exact hblast
          · exact hbo d hd

theorem mergeAdj_valid (p : DiffRegion → DiffRegion → Bool) (la lb : Nat)
    (ds : List DiffRegion) (h : ValidSeq la lb ds) :
    ValidSeq la lb (mergeAdj p ds) := by
  cases ds with
  | nil => exact h
  | cons d t =>
      obtain ⟨ha1, ha2, hb1, hb2⟩ := h
      obtain ⟨c1, c2, _, _⟩ := mergeFold_side p DiffRegion.a la
        (fun _ _ => rfl) t d ha1 ha2
      obtain ⟨c3, c4, _, _⟩ := mergeFold_side p DiffRegion.b lb
        (fun _ _ => rfl) t d hb1 hb2
      exact ⟨c1, c2, c3, c4⟩

/-- mergeFold preserves cross-side equality of the complement spans: a
merge only deletes the same gap from both sides' gap lists. -/
theorem mergeFold_gaps (p : DiffRegion → DiffRegion → Bool) (a b : List Char) :
    ∀ (ds : List DiffRegion) (last : DiffRegion) (posA posB : Nat),
      gapsOf DiffRegion.a a posA (last :: ds) =
        gapsOf DiffRegion.b b posB (last :: ds) →
      gapsOf DiffRegion.a a posA (mergeFold p last ds) =
        gapsOf DiffRegion.b b posB (mergeFold p last ds) := by
  intro ds
  induction ds with
  | nil => intro last posA posB h; exact h
  | cons cur rest ih =>
      intro last posA posB h
      have h1 : sliceL a posA last.a.s = sliceL b posB last.b.s :=
        (List.cons.inj h).1
      have h2 : sliceL a last.a.e cur.a.s = sliceL b last.b.e cur.b.s :=
        (List.cons.inj (List.cons.inj h).2).1
      have h3 : gapsOf DiffRegion.a a cur.a.e rest =
          gapsOf DiffRegion.b b cur.b.e rest :=
        (List.cons.inj (List.cons.inj h).2).2
      rw [mergeFold]
      split
      · apply ih
        show sliceL a posA (joinR last cur).a.s ::
            gapsOf DiffRegion.a a (joinR last cur).a.e rest = _
        show _ = sliceL b posB (joinR last cur).b.s ::
            gapsOf DiffRegion.b b (joinR last cur).b.e rest
        exact List.cons_eq_cons.mpr ⟨h1, h3⟩
      · show sliceL a posA last.a.s ::
            gapsOf DiffRegion.a a last.a.e (mergeFold p cur rest) = _
        show _ = sliceL b posB last.b.s ::
            gapsOf DiffRegion.b b last.b.e (mergeFold p cur rest)
        refine List.cons_eq_cons.mpr ⟨h1, ?_⟩
        apply ih
        show sliceL a last.a.e cur.a.s :: gapsOf DiffRegion.a a cur.a.e rest = _
        show _ = sliceL b last.b.e cur.b.s :: gapsOf DiffRegion.b b cur.b.e rest
        exact List.cons_eq_cons.mpr ⟨h2, h3⟩

theorem mergeAdj_gaps (p : DiffRegion → DiffRegion → Bool) (a b : List Char)
    (ds : List DiffRegion)
    (h : gapsOf DiffRegion.a a 0 ds = gapsOf DiffRegion.b b 0 ds) :
    gapsOf DiffRegion.a a 0 (mergeAdj p ds) =
      gapsOf DiffRegion.b b 0 (mergeAdj p ds) := by
  cases ds with
  | nil => exact h
  | cons d t => exact mergeFold_gaps p a b t d 0 0 h

/-! ### Idempotence of the merging passes -/

theorem mergeFold_noAdj (p : DiffRegion → DiffRegion → Bool)
    (hp2 : ∀ x y y', y'.a.s = y.a.s → y'.b.s = y.b.s → p x y' = p x y) :
    ∀ (ds : List DiffRegion) (last : DiffRegion),
      List.Chain' (fun u v => p u v = false) (mergeFold p last ds) := by
  intro ds
  induction ds with
  | nil => intro last; exact List.chain'_singleton _
  | cons cur rest ih =>
      intro last
      rw [mergeFold]
      split
      · exact ih (joinR last cur)
      · next hploc =>
          obtain ⟨h, t, he, h1, h2⟩ := mergeFold_decomp p rest cur
          rw [he]
          refine List.chain'_cons.mpr ⟨?_, he ▸ ih cur⟩
          rw [hp2 last cur h h1 h2]
          exact Bool.eq_false_iff.mpr hploc

theorem mergeFold_of_noAdj (p : DiffRegion → DiffRegion → Bool) :
    ∀ (ds : List DiffRegion) (last : DiffRegion),
      List.Chain' (fun u v => p u v = false) (last :: ds) →
      mergeFold p last ds = last :: ds := by
  intro ds
  induction ds with
  | nil => intro last _; rfl
  | cons cur rest ih =>
      intro last hch
      rw [mergeFold, if_neg]
      · rw [ih cur (List.chain'_cons.mp hch).2]
      · rw [(List.chain'_cons.mp hch).1]
        simp

theorem mergeAdj_of_noAdj (p : DiffRegion → DiffRegion → Bool)
    (ds : List DiffRegion)
    (h : List.Chain' (fun u v => p u v = false) ds) : mergeAdj p ds = ds := by
  cases ds with
  | nil => rfl
  | cons d t => exact mergeFold_of_noAdj p t d h

/-- The consecutive pairs of a sequence. -/
def adjPairs : List DiffRegion → List (DiffRegion × DiffRegion)
  | [] => []
  | [_] => []
  | x :: y :: t => (x, y) :: adjPairs (y :: t)

theorem adjPairs_cons_mem {q : DiffRegion × DiffRegion} {m : List DiffRegion}
    (x : DiffRegion) (h : q ∈ adjPairs m) : q ∈ adjPairs (x :: m) := by
  cases m with
  | nil => exact absurd h (List.not_mem_nil q)
  | cons y t => exact List.mem_cons_of_mem _ h

/-- A consecutive pair that the merge predicate rejects keeps its boundary:
the left end and the right start both survive into some consecutive pair of
the output (merges happen only across accepted pairs). -/
theorem mergeFold_boundary (p : DiffRegion → DiffRegion → Bool)
    (hp1 : ∀ x y z, p (joinR x y) z = p y z) :
    ∀ (ds : List DiffRegion) (last : DiffRegion)
      (d1 d2 : DiffRegion), (d1, d2) ∈ adjPairs (last :: ds) →
      p d1 d2 = false →
      ∃ q ∈ adjPairs (mergeFold p last ds),
        q.1.a.e = d1.a.e ∧ q.1.b.e = d1.b.e ∧
        q.2.a.s = d2.a.s ∧ q.2.b.s = d2.b.s := by
  intro ds
  induction ds with
  | nil =>
      intro last d1 d2 hmem _
      exact absurd hmem (List.not_mem_nil _)
  | cons cur rest ih =>
      intro last d1 d2 hmem hfalse
      rw [mergeFold]
      rcases List.mem_cons.mp hmem with hmem | hmem
      · obtain ⟨he1, he2⟩ := Prod.mk.inj (hmem : (d1, d2) = (last, cur))
        subst he1
        subst he2
        rw [if_neg (by rw [hfalse]; simp)]
        obtain ⟨h, t, he, h1, h2⟩ := mergeFold_decomp p rest d2
        rw [he]
        exact ⟨(d1, h), List.mem_cons_self _ _, rfl, rfl, h1, h2⟩
      · split
        · next hpc =>
            cases rest with
            | nil =>
                exact absurd hmem (List.not_mem_nil _)
            | cons r t =>
                rcases List.mem_cons.mp hmem with hmem | hmem
                · obtain ⟨he1, he2⟩ := Prod.mk.inj (hmem : (d1, d2) = (cur, r))
                  subst he1
                  subst he2
                  obtain ⟨q, hq, hq1, hq2, hq3, hq4⟩ :=
                    ih (joinR last d1) (joinR last d1) d2
                      (List.mem_cons_self _ _)
                      (by rw [hp1]; exact hfalse)
                  exact ⟨q, hq, by rw [hq1]; rfl, by rw [hq2]; rfl, hq3, hq4⟩
                · exact ih (joinR last cur) d1 d2
                    (adjPairs_cons_mem _ hmem) hfalse
        · obtain ⟨h, t, he, h1, h2⟩ := mergeFold_decomp p rest cur
          obtain ⟨q, hq, hq1, hq2, hq3, hq4⟩ := ih cur d1 d2 hmem hfalse
          rw [he] at hq ⊢
          exact ⟨q, adjPairs_cons_mem _ hq, hq1, hq2, hq3, hq4⟩

theorem shortGapPred_start (x y y' : DiffRegion) (h1 : y'.a.s = y.a.s)
    (_ : y'.b.s = y.b.s) : shortGapPred x y' = shortGapPred x y := by
  unfold shortGapPred
  rw [h1]

theorem removeShortMatches_noAdj (ds : List DiffRegion) :
    List.Chain' (fun u v => shortGapPred u v = false)
      (removeShortMatches ds) := by
  cases ds with
  | nil => exact List.chain'_nil
  | cons d t => exact mergeFold_noAdj shortGapPred shortGapPred_start t d

theorem mergeAdj_idem_of_start (p : DiffRegion → DiffRegion → Bool)
    (hp2 : ∀ x y y', y'.a.s = y.a.s → y'.b.s = y.b.s → p x y' = p x y)
    (ds : List DiffRegion) : mergeAdj p (mergeAdj p ds) = mergeAdj p ds := by
  cases ds with
  | nil => rfl
  | cons d t =>
      exact mergeAdj_of_noAdj p (mergeFold p d t) (mergeFold_noAdj p hp2 t d)

theorem mergeFold_length_le (p : DiffRegion → DiffRegion → Bool) :
    ∀ (ds : List DiffRegion) (last : DiffRegion),
      (mergeFold p last ds).length ≤ ds.length + 1 := by
  intro ds
  induction ds with
  | nil => intro last; simp [mergeFold]
  | cons cur rest ih =>
      intro last
      rw [mergeFold]
      split
      · calc (mergeFold p (joinR last cur) rest).length ≤ rest.length + 1 :=
            ih (joinR last cur)
          _ ≤ (cur :: rest).length + 1 := by simp
      · simpa using ih cur

theorem mergeFold_eq_or_lt (p : DiffRegion → DiffRegion → Bool) :
    ∀ (ds : List DiffRegion) (last : DiffRegion),
      mergeFold p last ds = last :: ds ∨
      (mergeFold p last ds).length < ds.length + 1 := by
  intro ds
  induction ds with
  | nil => intro last; left; rfl
  | cons cur rest ih =>
      intro last
      rw [mergeFold]
      split
      · right
        calc (mergeFold p (joinR last cur) rest).length ≤ rest.length + 1 :=
            mergeFold_length_le p rest (joinR last cur)
          _ < (cur :: rest).length + 1 := by simp
      · rcases ih cur with he | hl
        · left
          rw [he]
        · right
          simpa using hl

theorem mergeAdj_eq_or_lt (p : DiffRegion → DiffRegion → Bool)
    (ds : List DiffRegion) :
    mergeAdj p ds = ds ∨ (mergeAdj p ds).length < ds.length := by
  cases ds with
  | nil => left; rfl
  | cons d t =>
      rcases mergeFold_eq_or_lt p t d with he | hl
      · left; exact he
      · right; simpa using hl

theorem mergeFix_fixed (p : DiffRegion → DiffRegion → Bool) :
    ∀ (fuel : Nat) (ds : List DiffRegion), ds.length ≤ fuel →
      mergeAdj p (mergeFix p fuel ds) = mergeFix p fuel ds := by
  intro fuel
  induction fuel with
  | zero =>
      intro ds h
      have hnil : ds = [] := List.eq_nil_of_length_eq_zero (by omega)
      subst hnil
      rfl
  | succ n ih =>
      intro ds h
      rw [mergeFix]
      split
      · next heq => exact heq
      · next hne =>
          apply ih
          rcases mergeAdj_eq_or_lt p ds with he | hl
          · exact absurd he hne
          · omega

theorem mergeFix_self (p : DiffRegion → DiffRegion → Bool) :
    ∀ (n : Nat) (ds : List DiffRegion), mergeAdj p ds = ds →
      mergeFix p n ds = ds := by
  intro n ds h
  cases n with
  | zero => rfl
  | succ k => rw [mergeFix, if_pos h]

theorem mergeFix_valid (p : DiffRegion → DiffRegion → Bool) (la lb : Nat) :
    ∀ (fuel : Nat) (ds : List DiffRegion), ValidSeq la lb ds →
      ValidSeq la lb (mergeFix p fuel ds) := by
  intro fuel
  induction fuel with
  | zero => intro ds h; exact h
  | succ n ih =>
      intro ds h
      rw [mergeFix]
      split
      · exact h
      · exact ih _ (mergeAdj_valid p la lb ds h)

theorem mergeFix_gaps (p : DiffRegion → DiffRegion → Bool) (a b : List Char) :
    ∀ (fuel : Nat) (ds : List DiffRegion),
      gapsOf DiffRegion.a a 0 ds = gapsOf DiffRegion.b b 0 ds →
      gapsOf DiffRegion.a a 0 (mergeFix p fuel ds) =
        gapsOf DiffRegion.b b 0 (mergeFix p fuel ds) := by
  intro fuel
  induction fuel with
  | zero => intro ds h; exact h
  | succ n ih =>
      intro ds h
      rw [mergeFix]
      split
      · exact h
      · exact ih _ (mergeAdj_gaps p a b ds h)

/-! ### Properties of the token-boundary extension walk -/

theorem sliceL_take (l : List Char) {i j : Nat} (q : Nat) (hq : q ≤ j) :
    sliceL l i q = (sliceL l i j).take (q - i) := by
  have h := sliceL_sub l (i := i) (j := j) 0 q hq
  simpa using h

theorem sliceL_drop (l : List Char) {i j : Nat} (p : Nat) (hj : j ≤ l.length) :
    sliceL l (i + p) j = (sliceL l i j).drop p := by
  rw [sliceL_sub l (i := i) (j := j) p j (le_refl j)]
  apply List.take_of_length_le
  rw [List.length_drop, sliceL_length hj]
  omega

theorem extAmtL_le1 (extL : List Char → List Char → Nat → Nat → DiffRegion → Nat)
    (a b : List Char) (peA peB : Nat) (d : DiffRegion) :
    extAmtL extL a b peA peB d ≤ d.a.s - peA :=
  le_trans (min_le_right _ _) (min_le_left _ _)

theorem extAmtL_le2 (extL : List Char → List Char → Nat → Nat → DiffRegion → Nat)
    (a b : List Char) (peA peB : Nat) (d : DiffRegion) :
    extAmtL extL a b peA peB d ≤ d.b.s - peB :=
  le_trans (min_le_right _ _) (min_le_right _ _)

theorem extAmtR_le1 (extR : List Char → List Char → Nat → Nat → DiffRegion → Nat)
    (a b : List Char) (nA nB : Nat) (d : DiffRegion) :
    extAmtR extR a b nA nB d ≤ nA - d.a.e :=
  le_trans (min_le_right _ _) (min_le_left _ _)

theorem extAmtR_le2 (extR : List Char → List Char → Nat → Nat → DiffRegion → Nat)
    (a b : List Char) (nA nB : Nat) (d : DiffRegion) :
    extAmtR extR a b nA nB d ≤ nB - d.b.e :=
  le_trans (min_le_right _ _) (min_le_right _ _)

theorem wecGo_valid (extL extR : List Char → List Char → Nat → Nat → DiffRegion → Nat)
    (a b : List Char) :
    ∀ (ds : List DiffRegion) (peA peB : Nat),
      ChainOf DiffRegion.a ds → BoundsOf DiffRegion.a a.length ds →
      ChainOf DiffRegion.b ds → BoundsOf DiffRegion.b b.length ds →
      peA ≤ firstBndOf DiffRegion.a a.length ds →
      peB ≤ firstBndOf DiffRegion.b b.length ds →
      ChainOf DiffRegion.a (wecGo extL extR a b peA peB ds) ∧
      BoundsOf DiffRegion.a a.length (wecGo extL extR a b peA peB ds) ∧
      ChainOf DiffRegion.b (wecGo extL extR a b peA peB ds) ∧
      BoundsOf DiffRegion.b b.length (wecGo extL extR a b peA peB ds) ∧
      peA ≤ firstBndOf DiffRegion.a a.length (wecGo extL extR a b peA peB ds) ∧
      peB ≤ firstBndOf DiffRegion.b b.length (wecGo extL extR a b peA peB ds) := by
  intro ds
  induction ds with
  | nil =>
      intro peA peB _ _ _ _ hA hB
      exact ⟨List.chain'_nil, by simp [BoundsOf, wecGo], List.chain'_nil,
        by simp [BoundsOf, wecGo], hA, hB⟩
  | cons d rest ih =>
      intro peA peB hca hba hcb hbb hA hB
      have hdA : peA ≤ d.a.s := hA
      have hdB : peB ≤ d.b.s := hB
      have hbd1 := hba d (List.mem_cons_self _ _)
      have hbd2 := hbb d (List.mem_cons_self _ _)
      have hca' : ChainOf DiffRegion.a rest := List.Chain'.tail hca
      have hcb' : ChainOf DiffRegion.b rest := List.Chain'.tail hcb
      have hba' : BoundsOf DiffRegion.a a.length rest :=
        fun x hx => hba x (List.mem_cons_of_mem _ hx)
      have hbb' : BoundsOf DiffRegion.b b.length rest :=
        fun x hx => hbb x (List.mem_cons_of_mem _ hx)
      have heA : d.a.e ≤ firstBndOf DiffRegion.a a.length rest := by
        cases rest with
        | nil => exact hbd1.2
        | cons d2 t => exact (List.chain'_cons.mp hca).1
      have heB : d.b.e ≤ firstBndOf DiffRegion.b b.length rest := by
        cases rest with
        | nil => exact hbd2.2
        | cons d2 t => exact (List.chain'_cons.mp hcb).1
      have hnA : firstBndOf DiffRegion.a a.length rest ≤ a.length :=
        firstBnd_le hba'
      have hnB : firstBndOf DiffRegion.b b.length rest ≤ b.length :=
        firstBnd_le hbb'
      set dL := extAmtL extL a b peA peB d with hdL
      set dR := extAmtR extR a b (firstBndOf DiffRegion.a a.length rest)
        (firstBndOf DiffRegion.b b.length rest) d with hdR
      have hdL1 : dL ≤ d.a.s - peA := extAmtL_le1 _ _ _ _ _ _
      have hdL2 : dL ≤ d.b.s - peB := extAmtL_le2 _ _ _ _ _ _
      have hdR1 : dR ≤ firstBndOf DiffRegion.a a.length rest - d.a.e :=
        extAmtR_le1 _ _ _ _ _ _
      have hdR2 : dR ≤ firstBndOf DiffRegion.b b.length rest - d.b.e :=
        extAmtR_le2 _ _ _ _ _ _
      have hpeA' : d.a.e + dR ≤ firstBndOf DiffRegion.a a.length rest := by omega
      have hpeB' : d.b.e + dR ≤ firstBndOf DiffRegion.b b.length rest := by omega
      obtain ⟨c1, c2, c3, c4, c5, c6⟩ :=
        ih (d.a.e + dR) (d.b.e + dR) hca' hba' hcb' hbb' hpeA' hpeB'
      rw [wecGo]
      refine ⟨?_, ?_, ?_, ?_, ?_, ?_⟩
      · exact chain'_cons_of_firstBnd c1 c5
      · intro x hx
        rcases List.mem_cons.mp hx with hx | hx
        · subst hx
          constructor
          · show d.a.s - dL ≤ d.a.e + dR
            omega
          · show d.a.e + dR ≤ a.length
            omega
        · exact c2 x hx
      · exact chain'_cons_of_firstBnd c3 c6
      · intro x hx
        rcases List.mem_cons.mp hx with hx | hx
        · subst hx
          constructor
          · show d.b.s - dL ≤ d.b.e + dR
            omega
          · show d.b.e + dR ≤ b.length
            omega
        · exact c4 x hx
      · show peA ≤ d.a.s - dL
        omega
      · show peB ≤ d.b.s - dL
        omega

theorem wecGo_cover (extL extR : List Char → List Char → Nat → Nat → DiffRegion → Nat)
    (a b : List Char) :
    ∀ (ds : List DiffRegion) (peA peB : Nat) (d : DiffRegion), d ∈ ds →
      ∃ d' ∈ wecGo extL extR a b peA peB ds, ContainedIn d d' := by
  intro ds
  induction ds with
  | nil => intro peA peB d hd; exact absurd hd (List.not_mem_nil d)
  | cons d0 rest ih =>
      intro peA peB d hd
      rw [wecGo]
      rcases List.mem_cons.mp hd with hd | hd
      · subst hd
        refine ⟨_, List.mem_cons_self _ _, ?_, ?_, ?_, ?_⟩
        · show d.a.s - extAmtL extL a b peA peB d ≤ d.a.s
          omega
        · show d.a.e ≤ d.a.e + _
          omega
        · show d.b.s - extAmtL extL a b peA peB d ≤ d.b.s
          omega
        · show d.b.e ≤ d.b.e + _
          omega
      · obtain ⟨d', hmem, hcont⟩ := ih _ _ d hd
        exact ⟨d', List.mem_cons_of_mem _ hmem, hcont⟩

theorem wecGo_gaps (extL extR : List Char → List Char → Nat → Nat → DiffRegion → Nat)
    (a b : List Char) :
    ∀ (ds : List DiffRegion) (peA peB : Nat),
      ChainOf DiffRegion.a ds → BoundsOf DiffRegion.a a.length ds →
      ChainOf DiffRegion.b ds → BoundsOf DiffRegion.b b.length ds →
      peA ≤ firstBndOf DiffRegion.a a.length ds →
      peB ≤ firstBndOf DiffRegion.b b.length ds →
      gapsOf DiffRegion.a a peA ds = gapsOf DiffRegion.b b peB ds →
      gapsOf DiffRegion.a a peA (wecGo extL extR a b peA peB ds) =
        gapsOf DiffRegion.b b peB (wecGo extL extR a b peA peB ds) := by
  intro ds
  induction ds with
  | nil => intro peA peB _ _ _ _ _ _ h; exact h
  | cons d rest ih =>
      intro peA peB hca hba hcb hbb hA hB h
      have hdA : peA ≤ d.a.s := hA
      have hdB : peB ≤ d.b.s := hB
      have hbd1 := hba d (List.mem_cons_self _ _)
      have hbd2 := hbb d (List.mem_cons_self _ _)
      have hca' : ChainOf DiffRegion.a rest := List.Chain'.tail hca
      have hcb' : ChainOf DiffRegion.b rest := List.Chain'.tail hcb
      have hba' : BoundsOf DiffRegion.a a.length rest :=
        fun x hx => hba x (List.mem_cons_of_mem _ hx)
      have hbb' : BoundsOf DiffRegion.b b.length rest :=
        fun x hx => hbb x (List.mem_cons_of_mem _ hx)
      have heA : d.a.e ≤ firstBndOf DiffRegion.a a.length rest := by
        cases rest with
        | nil => exact hbd1.2
        | cons d2 t => exact (List.chain'_cons.mp hca).1
      have heB : d.b.e ≤ firstBndOf DiffRegion.b b.length rest := by
        cases rest with
        | nil => exact hbd2.2
        | cons d2 t => exact (List.chain'_cons.mp hcb).1
      have hnA : firstBndOf DiffRegion.a a.length rest ≤ a.length :=
        firstBnd_le hba'
      have hnB : firstBndOf DiffRegion.b b.length rest ≤ b.length :=
        firstBnd_le hbb'
      have h1 : sliceL a peA d.a.s = sliceL b peB d.b.s := (List.cons.inj h).1
      have h2 : gapsOf DiffRegion.a a d.a.e rest =
          gapsOf DiffRegion.b b d.b.e rest := (List.cons.inj h).2
      have hlen : d.a.s - peA = d.b.s - peB := by
        have la1 : (sliceL a peA d.a.s).length = d.a.s - peA :=
          sliceL_length (le_trans hbd1.1 hbd1.2)
        have lb1 : (sliceL b peB d.b.s).length = d.b.s - peB :=
          sliceL_length (le_trans hbd2.1 hbd2.2)
        rw [← la1, ← lb1, h1]
      set dL := extAmtL extL a b peA peB d with hdL
      set dR := extAmtR extR a b (firstBndOf DiffRegion.a a.length rest)
        (firstBndOf DiffRegion.b b.length rest) d with hdR
      have hdL1 : dL ≤ d.a.s - peA := extAmtL_le1 _ _ _ _ _ _
      have hdL2 : dL ≤ d.b.s - peB := extAmtL_le2 _ _ _ _ _ _
      have hdR1 : dR ≤ firstBndOf DiffRegion.a a.length rest - d.a.e :=
        extAmtR_le1 _ _ _ _ _ _
      have hdR2 : dR ≤ firstBndOf DiffRegion.b b.length rest - d.b.e :=
        extAmtR_le2 _ _ _ _ _ _
      have hpeA' : d.a.e + dR ≤ firstBndOf DiffRegion.a a.length rest := by omega
      have hpeB' : d.b.e + dR ≤ firstBndOf DiffRegion.b b.length rest := by omega
      -- cross-side equality of the tail gaps, shifted past the right extension
      have h2' : gapsOf DiffRegion.a a (d.a.e + dR) rest =
          gapsOf DiffRegion.b b (d.b.e + dR) rest := by
        rw [gapsOf_decomp, gapsOf_decomp] at h2 ⊢
        have e1 : sliceL a d.a.e (firstBndOf DiffRegion.a a.length rest) =
            sliceL b d.b.e (firstBndOf DiffRegion.b b.length rest) :=
          (List.cons.inj h2).1
        have e2 := (List.cons.inj h2).2
        refine List.cons_eq_cons.mpr ⟨?_, e2⟩
        rw [sliceL_drop a dR hnA, sliceL_drop b dR hnB, e1]
      have hrec := ih (d.a.e + dR) (d.b.e + dR) hca' hba' hcb' hbb'
        hpeA' hpeB' h2'
      rw [wecGo]
      show sliceL a peA (d.a.s - dL) :: gapsOf DiffRegion.a a (d.a.e + dR) _ =
        sliceL b peB (d.b.s - dL) :: gapsOf DiffRegion.b b (d.b.e + dR) _
      refine List.cons_eq_cons.mpr ⟨?_, hrec⟩
      rw [sliceL_take a (j := d.a.s) (d.a.s - dL) (by omega),
        sliceL_take b (j := d.b.s) (d.b.s - dL) (by omega), h1]
      congr 1
      omega

/-- Containment is reflexive and transitive. -/
theorem ContainedIn.rfl (d : DiffRegion) : ContainedIn d d :=
  ⟨le_refl _, le_refl _, le_refl _, le_refl _⟩

theorem ContainedIn.trans {d1 d2 d3 : DiffRegion}
    (h1 : ContainedIn d1 d2) (h2 : ContainedIn d2 d3) : ContainedIn d1 d3 := by
  obtain ⟨a1, a2, a3, a4⟩ := h1
  obtain ⟨b1, b2, b3, b4⟩ := h2
  exact ⟨le_trans b1 a1, le_trans a2 b2, le_trans b3 a3, le_trans a4 b4⟩

theorem mergeFold_cover (p : DiffRegion → DiffRegion → Bool) (la lb : Nat) :
    ∀ (ds : List DiffRegion) (last : DiffRegion),
      ChainOf DiffRegion.a (last :: ds) → BoundsOf DiffRegion.a la (last :: ds) →
      ChainOf DiffRegion.b (last :: ds) → BoundsOf DiffRegion.b lb (last :: ds) →
      ∀ d ∈ last :: ds, ∃ d' ∈ mergeFold p last ds, ContainedIn d d' := by
  intro ds
  induction ds with
  | nil =>
      intro last _ _ _ _ d hd
      rw [List.mem_singleton] at hd
      subst hd
      exact ⟨d, List.mem_singleton_self d, ContainedIn.rfl d⟩
  | cons cur rest ih =>
      intro last hca hba hcb hbb d hd
      have hrelA : last.a.e ≤ cur.a.s := (List.chain'_cons.mp hca).1
      have hrelB : last.b.e ≤ cur.b.s := (List.chain'_cons.mp hcb).1
      have hbl1 := hba last (List.mem_cons_self _ _)
      have hbl2 := hbb last (List.mem_cons_self _ _)
      have hbc1 := hba cur (List.mem_cons_of_mem _ (List.mem_cons_self _ _))
      have hbc2 := hbb cur (List.mem_cons_of_mem _ (List.mem_cons_self _ _))
      rw [mergeFold]
      split
      · have hchJA : ChainOf DiffRegion.a (joinR last cur :: rest) := by
          cases rest with
          | nil => exact List.chain'_singleton _
          | cons r t =>
              exact List.chain'_cons.mpr
                ⟨(List.chain'_cons.mp (List.Chain'.tail hca)).1,
                 (List.chain'_cons.mp (List.Chain'.tail hca)).2⟩
        have hchJB : ChainOf DiffRegion.b (joinR last cur :: rest) := by
          cases rest with
          | nil => exact List.chain'_singleton _
          | cons r t =>
              exact List.chain'_cons.mpr
                ⟨(List.chain'_cons.mp (List.Chain'.tail hcb)).1,
                 (List.chain'_cons.mp (List.Chain'.tail hcb)).2⟩
        have hbJA : BoundsOf DiffRegion.a la (joinR last cur :: rest) := by
          intro x hx
          rcases List.mem_cons.mp hx with hx | hx
          · subst hx
            exact ⟨by show last.a.s ≤ cur.a.e; omega,
              by show cur.a.e ≤ la; exact hbc1.2⟩
          · exact hba x (List.mem_cons_of_mem _ (List.mem_cons_of_mem _ hx))
        have hbJB : BoundsOf DiffRegion.b lb (joinR last cur :: rest) := by
          intro x hx
          rcases List.mem_cons.mp hx with hx | hx
          · subst hx
            exact ⟨by show last.b.s ≤ cur.b.e; omega,
              by show cur.b.e ≤ lb; exact hbc2.2⟩
          · exact hbb x (List.mem_cons_of_mem _ (List.mem_cons_of_mem _ hx))
        have hJlast : ContainedIn last (joinR last cur) :=
          ⟨le_refl _, by show last.a.e ≤ cur.a.e; omega, le_refl _,
           by show last.b.e ≤ cur.b.e; omega⟩
        have hJcur : ContainedIn cur (joinR last cur) :=
          ⟨by show last.a.s ≤ cur.a.s; omega, le_refl _,
           by show last.b.s ≤ cur.b.s; omega, le_refl _⟩
        rcases List.mem_cons.mp hd with hd | hd
        · obtain ⟨d', hm, hc⟩ := ih (joinR last cur) hchJA hbJA hchJB hbJB
            (joinR last cur) (List.mem_cons_self _ _)
          refine ⟨d', hm, ?_⟩
          rw [hd]
          exact ContainedIn.trans hJlast hc
        · rcases List.mem_cons.mp hd with hd | hd
          · obtain ⟨d', hm, hc⟩ := ih (joinR last cur) hchJA hbJA hchJB hbJB
              (joinR last cur) (List.mem_cons_self _ _)
            refine ⟨d', hm, ?_⟩
            rw [hd]
            exact ContainedIn.trans hJcur hc
          · exact ih (joinR last cur) hchJA hbJA hchJB hbJB d
              (List.mem_cons_of_mem _ hd)
      · rcases List.mem_cons.mp hd with hd | hd
        · refine ⟨last, List.mem_cons_self _ _, ?_⟩
          rw [hd]
          exact ContainedIn.rfl last
        · obtain ⟨d', hm, hc⟩ := ih cur (List.Chain'.tail hca)
            (fun x hx => hba x (List.mem_cons_of_mem _ hx))
            (List.Chain'.tail hcb)
            (fun x hx => hbb x (List.mem_cons_of_mem _ hx)) d hd
          exact ⟨d', List.mem_cons_of_mem _ hm, hc⟩

theorem mergeAdj_cover (p : DiffRegion → DiffRegion → Bool) (la lb : Nat)
    (ds : List DiffRegion) (h : ValidSeq la lb ds) :
    ∀ d ∈ ds, ∃ d' ∈ mergeAdj p ds, ContainedIn d d' := by
  cases ds with
  | nil => intro d hd; exact absurd hd (List.not_mem_nil d)
  | cons d0 t =>
      obtain ⟨c1, c2, c3, c4⟩ := h
      exact mergeFold_cover p la lb t d0 c1 c2 c3 c4

/-! ### Properties of boundary optimization -/

theorem pickBest_mem (score : DiffRegion → Nat) :
    ∀ (l : List DiffRegion) (dflt : DiffRegion),
      pickBest score l dflt = dflt ∨ pickBest score l dflt ∈ l := by
  intro l
  induction l with
  | nil => intro dflt; left; rfl
  | cons c rest ih =>
      intro dflt
      rw [pickBest]
      rcases ih (if score dflt < score c then c else dflt) with h | h
      · rw [h]
        split
        · right; exact List.mem_cons_self _ _
        · left; rfl
      · right; exact List.mem_cons_of_mem _ h

theorem chooseShift_spec (a b : List Char) (loA loB hiA hiB : Nat)
    (d : DiffRegion) :
    chooseShift a b loA loB hiA hiB d = d ∨
    okShift a b loA loB hiA hiB (chooseShift a b loA loB hiA hiB d) = true := by
  unfold chooseShift
  rcases pickBest_mem (regionScore a b) _ d with h | h
  · left; exact h
  · right; exact (List.mem_filter.mp h).2

theorem okShift_spec {a b : List Char} {loA loB hiA hiB : Nat} {c : DiffRegion}
    (h : okShift a b loA loB hiA hiB c = true) :
    loA ≤ c.a.s ∧ c.a.s ≤ c.a.e ∧ c.a.e ≤ hiA ∧
    loB ≤ c.b.s ∧ c.b.s ≤ c.b.e ∧ c.b.e ≤ hiB ∧
    sliceL a loA c.a.s = sliceL b loB c.b.s ∧
    sliceL a c.a.e hiA = sliceL b c.b.e hiB :=
  of_decide_eq_true h

theorem osdGo_valid (a b : List Char) :
    ∀ (ds : List DiffRegion) (loA loB : Nat),
      ChainOf DiffRegion.a ds → BoundsOf DiffRegion.a a.length ds →
      ChainOf DiffRegion.b ds → BoundsOf DiffRegion.b b.length ds →
      loA ≤ firstBndOf DiffRegion.a a.length ds →
      loB ≤ firstBndOf DiffRegion.b b.length ds →
      ChainOf DiffRegion.a (osdGo a b loA loB ds) ∧
      BoundsOf DiffRegion.a a.length (osdGo a b loA loB ds) ∧
      ChainOf DiffRegion.b (osdGo a b loA loB ds) ∧
      BoundsOf DiffRegion.b b.length (osdGo a b loA loB ds) ∧
      loA ≤ firstBndOf DiffRegion.a a.length (osdGo a b loA loB ds) ∧
      loB ≤ firstBndOf DiffRegion.b b.length (osdGo a b loA loB ds) := by
  intro ds
  induction ds with
  | nil =>
      intro loA loB _ _ _ _ hA hB
      exact ⟨List.chain'_nil, by simp [BoundsOf, osdGo], List.chain'_nil,
        by simp [BoundsOf, osdGo], hA, hB⟩
  | cons d1 tail ih =>
      intro loA loB hca hba hcb hbb hA hB
      have hbd1 := hba d1 (List.mem_cons_self _ _)
      have hbd2 := hbb d1 (List.mem_cons_self _ _)
      cases tail with
      | nil =>
          have hcs := chooseShift_spec a b loA loB a.length b.length d1
          have hfacts : loA ≤ (chooseShift a b loA loB a.length b.length d1).a.s ∧
              (chooseShift a b loA loB a.length b.length d1).a.s ≤
                (chooseShift a b loA loB a.length b.length d1).a.e ∧
              (chooseShift a b loA loB a.length b.length d1).a.e ≤ a.length ∧
              loB ≤ (chooseShift a b loA loB a.length b.length d1).b.s ∧
              (chooseShift a b loA loB a.length b.length d1).b.s ≤
                (chooseShift a b loA loB a.length b.length d1).b.e ∧
              (chooseShift a b loA loB a.length b.length d1).b.e ≤ b.length := by
            rcases hcs with hc | hc
            · rw [hc]
              exact ⟨hA, hbd1.1, hbd1.2, hB, hbd2.1, hbd2.2⟩
            · have := okShift_spec hc
              exact ⟨this.1, this.2.1, this.2.2.1, this.2.2.2.1,
                this.2.2.2.2.1, this.2.2.2.2.2.1⟩
          rw [osdGo]
          refine ⟨List.chain'_singleton _, ?_, List.chain'_singleton _, ?_,
            hfacts.1, hfacts.2.2.2.1⟩
          · intro x hx
            rw [List.mem_singleton] at hx
            subst hx
            exact ⟨hfacts.2.1, hfacts.2.2.1⟩
          · intro x hx
            rw [List.mem_singleton] at hx
            subst hx
            exact ⟨hfacts.2.2.2.2.1, hfacts.2.2.2.2.2⟩
      | cons d2 rest =>
          have hbd21 := hba d2 (List.mem_cons_of_mem _ (List.mem_cons_self _ _))
          have hbd22 := hbb d2 (List.mem_cons_of_mem _ (List.mem_cons_self _ _))
          have hrelA : d1.a.e ≤ d2.a.s := (List.chain'_cons.mp hca).1
          have hrelB : d1.b.e ≤ d2.b.s := (List.chain'_cons.mp hcb).1
          have hcs := chooseShift_spec a b loA loB d2.a.s d2.b.s d1
          have hfacts : loA ≤ (chooseShift a b loA loB d2.a.s d2.b.s d1).a.s ∧
              (chooseShift a b loA loB d2.a.s d2.b.s d1).a.s ≤
                (chooseShift a b loA loB d2.a.s d2.b.s d1).a.e ∧
              (chooseShift a b loA loB d2.a.s d2.b.s d1).a.e ≤ d2.a.s ∧
              loB ≤ (chooseShift a b loA loB d2.a.s d2.b.s d1).b.s ∧
              (chooseShift a b loA loB d2.a.s d2.b.s d1).b.s ≤
                (chooseShift a b loA loB d2.a.s d2.b.s d1).b.e ∧
              (chooseShift a b loA loB d2.a.s d2.b.s d1).b.e ≤ d2.b.s := by
            rcases hcs with hc | hc
            · rw [hc]
              exact ⟨hA, hbd1.1, hrelA, hB, hbd2.1, hrelB⟩
            · have := okShift_spec hc
              exact ⟨this.1, this.2.1, this.2.2.1, this.2.2.2.1,
                this.2.2.2.2.1, this.2.2.2.2.2.1⟩
          obtain ⟨c1, c2, c3, c4, c5, c6⟩ :=
            ih (chooseShift a b loA loB d2.a.s d2.b.s d1).a.e
              (chooseShift a b loA loB d2.a.s d2.b.s d1).b.e
              (List.Chain'.tail hca)
              (fun x hx => hba x (List.mem_cons_of_mem _ hx))
              (List.Chain'.tail hcb)
              (fun x hx => hbb x (List.mem_cons_of_mem _ hx))
              hfacts.2.2.1 hfacts.2.2.2.2.2
          rw [osdGo]
          refine ⟨chain'_cons_of_firstBnd c1 c5, ?_,
            chain'_cons_of_firstBnd c3 c6, ?_, hfacts.1, hfacts.2.2.2.1⟩
          · intro x hx
            rcases List.mem_cons.mp hx with hx | hx
            · subst hx
              exact ⟨hfacts.2.1, by omega⟩
            · exact c2 x hx
          · intro x hx
            rcases List.mem_cons.mp hx with hx | hx
            · subst hx
              exact ⟨hfacts.2.2.2.2.1, by omega⟩
            · exact c4 x hx

theorem osdGo_gaps (a b : List Char) :
    ∀ (ds : List DiffRegion) (loA loB : Nat),
      ChainOf DiffRegion.a ds → BoundsOf DiffRegion.a a.length ds →
      ChainOf DiffRegion.b ds → BoundsOf DiffRegion.b b.length ds →
      loA ≤ firstBndOf DiffRegion.a a.length ds →
      loB ≤ firstBndOf DiffRegion.b b.length ds →
      gapsOf DiffRegion.a a loA ds = gapsOf DiffRegion.b b loB ds →
      gapsOf DiffRegion.a a loA (osdGo a b loA loB ds) =
        gapsOf DiffRegion.b b loB (osdGo a b loA loB ds) := by
  intro ds
  induction ds with
  | nil => intro loA loB _ _ _ _ _ _ h; exact h
  | cons d1 tail ih =>
      intro loA loB hca hba hcb hbb hA hB h
      have hbd1 := hba d1 (List.mem_cons_self _ _)
      have hbd2 := hbb d1 (List.mem_cons_self _ _)
      cases tail with
      | nil =>
          rw [osdGo]
          rcases chooseShift_spec a b loA loB a.length b.length d1 with hc | hc
          · rw [hc]
            exact h
          · have hok := okShift_spec hc
            show sliceL a loA _ :: [sliceL a _ a.length] =
              sliceL b loB _ :: [sliceL b _ b.length]
            rw [hok.2.2.2.2.2.2.1, hok.2.2.2.2.2.2.2]
      | cons d2 rest =>
          have hrelA : d1.a.e ≤ d2.a.s := (List.chain'_cons.mp hca).1
          have hrelB : d1.b.e ≤ d2.b.s := (List.chain'_cons.mp hcb).1
          have hbd21 := hba d2 (List.mem_cons_of_mem _ (List.mem_cons_self _ _))
          have hbd22 := hbb d2 (List.mem_cons_of_mem _ (List.mem_cons_self _ _))
          have h1 : sliceL a loA d1.a.s = sliceL b loB d1.b.s :=
            (List.cons.inj h).1
          have h2 : sliceL a d1.a.e d2.a.s = sliceL b d1.b.e d2.b.s :=
            (List.cons.inj (List.cons.inj h).2).1
          have h3 : gapsOf DiffRegion.a a d2.a.e rest =
              gapsOf DiffRegion.b b d2.b.e rest :=
            (List.cons.inj (List.cons.inj h).2).2
          have hfacts : loA ≤ (chooseShift a b loA loB d2.a.s d2.b.s d1).a.s ∧
              (chooseShift a b loA loB d2.a.s d2.b.s d1).a.s ≤
                (chooseShift a b loA loB d2.a.s d2.b.s d1).a.e ∧
              (chooseShift a b loA loB d2.a.s d2.b.s d1).a.e ≤ d2.a.s ∧
              loB ≤ (chooseShift a b loA loB d2.a.s d2.b.s d1).b.s ∧
              (chooseShift a b loA loB d2.a.s d2.b.s d1).b.s ≤
                (chooseShift a b loA loB d2.a.s d2.b.s d1).b.e ∧
              (chooseShift a b loA loB d2.a.s d2.b.s d1).b.e ≤ d2.b.s := by
            rcases chooseShift_spec a b loA loB d2.a.s d2.b.s d1 with hc | hc
            · rw [hc]
              exact ⟨hA, hbd1.1, hrelA, hB, hbd2.1, hrelB⟩
            · have := okShift_spec hc
              exact ⟨this.1, this.2.1, this.2.2.1, this.2.2.2.1,
                this.2.2.2.2.1, this.2.2.2.2.2.1⟩
          have hgapshift : sliceL a loA
                (chooseShift a b loA loB d2.a.s d2.b.s d1).a.s =
              sliceL b loB (chooseShift a b loA loB d2.a.s d2.b.s d1).b.s ∧
              sliceL a (chooseShift a b loA loB d2.a.s d2.b.s d1).a.e d2.a.s =
              sliceL b (chooseShift a b loA loB d2.a.s d2.b.s d1).b.e d2.b.s := by
            rcases chooseShift_spec a b loA loB d2.a.s d2.b.s d1 with hc | hc
            · rw [hc]
              exact ⟨h1, h2⟩
            · have hok := okShift_spec hc
              exact ⟨hok.2.2.2.2.2.2.1, hok.2.2.2.2.2.2.2⟩
          have hrec := ih (chooseShift a b loA loB d2.a.s d2.b.s d1).a.e
            (chooseShift a b loA loB d2.a.s d2.b.s d1).b.e
            (List.Chain'.tail hca)
            (fun x hx => hba x (List.mem_cons_of_mem _ hx))
            (List.Chain'.tail hcb)
            (fun x hx => hbb x (List.mem_cons_of_mem _ hx))
            hfacts.2.2.1 hfacts.2.2.2.2.2
            (by
              show sliceL a _ d2.a.s :: gapsOf DiffRegion.a a d2.a.e rest =
                sliceL b _ d2.b.s :: gapsOf DiffRegion.b b d2.b.e rest
              exact List.cons_eq_cons.mpr ⟨hgapshift.2, h3⟩)
          rw [osdGo]
          exact List.cons_eq_cons.mpr ⟨hgapshift.1, hrec⟩

/-! ### Character View, Position Translator and Refinement Driver
(spec §4.1, §4.4, §4.5)

Modelled from the spec: only the driver's C prototypes appear in the
header; the components are modelled from the specification text. -/

/-- Modelled from the spec: the Character View (LinesSliceCharSequence):
concatenated content of the spanned lines joined by single newlines, the
number of characters elided from the front (whitespace elision), the line
length table for offset-to-position mapping, and the first spanned line. -/
structure CharView where
  content : List Char
  trimOff : Nat
  lineLens : List Nat
  lineStart : Nat
deriving DecidableEq, Repr

/-- Join lines with a single logical newline separator. -/
def joinLines : List (List Char) → List Char
  | [] => []
  | [l] => l
  | l :: l2 :: ls => l ++ '\n' :: joinLines (l2 :: ls)

/-- Trim trailing whitespace. -/
def dropTrail (l : List Char) : List Char := (l.reverse.dropWhile isWS).reverse

/-- Build the Character View of one side of a region; elide_whitespace
trims leading/trailing whitespace of the overall content and records the
leading trim in the offset map. -/
def buildView (lines : List (List Char)) (ls le : Nat) (elide : Bool) :
    CharView :=
  if elide then
    ⟨dropTrail ((joinLines ((lines.drop ls).take (le - ls))).drop
        ((joinLines ((lines.drop ls).take (le - ls))).takeWhile isWS).length),
      ((joinLines ((lines.drop ls).take (le - ls))).takeWhile isWS).length,
      ((lines.drop ls).take (le - ls)).map List.length, ls⟩
  else
    ⟨joinLines ((lines.drop ls).take (le - ls)), 0,
      ((lines.drop ls).take (le - ls)).map List.length, ls⟩

/-- Offset to (relative line, column) within a line length table. -/
def offToPos : List Nat → Nat → Nat × Nat
  | [], o => (0, o)
  | [_], o => (0, o)
  | l :: l2 :: ls, o =>
      if o ≤ l then (0, o)
      else ((offToPos (l2 :: ls) (o - (l + 1))).1 + 1,
        (offToPos (l2 :: ls) (o - (l + 1))).2)

/-- A (line, column) position. -/
structure Pos where
  line : Nat
  col : Nat
deriving DecidableEq, Repr

/-- An inclusive-start / exclusive-end position range. -/
structure PosRange where
  s : Pos
  e : Pos
deriving DecidableEq, Repr

/-- The public result unit: a pair of position ranges, one per side. -/
structure RangeMapping where
  original : PosRange
  modified : PosRange
deriving DecidableEq, Repr

/-- Translate a view offset back to an absolute (line, column) position. -/
def toPos (v : CharView) (off : Nat) : Pos :=
  ⟨v.lineStart + (offToPos v.lineLens (off + v.trimOff)).1,
   (offToPos v.lineLens (off + v.trimOff)).2⟩

/-- Position Translator (spec §4.4): one DiffRegion through both views. -/
def translateRegion (va vb : CharView) (d : DiffRegion) : RangeMapping :=
  ⟨⟨toPos va d.a.s, toPos va d.a.e⟩, ⟨toPos vb d.b.s, toPos vb d.b.e⟩⟩

/-- The solver deadline derived from the options (0 = unbounded). -/
def budgetOf (opts : CharLevelOptions) : Option Nat :=
  if opts.timeout_ms = 0 then none else some opts.timeout_ms

/-- Modelled from the spec: refine one line-level region to
character-level mappings (refine_diff_char_level, VSCode's refineDiff). -/
def refine_diff_char_level (line_diff : SequenceDiff)
    (lines_a lines_b : List (List Char)) (options : CharLevelOptions) :
    List RangeMapping × Bool :=
  ((optimizeDiffs options
      (buildView lines_a line_diff.aS line_diff.aE
        (!options.consider_whitespace_changes)).content
      (buildView lines_b line_diff.bS line_diff.bE
        (!options.consider_whitespace_changes)).content
      (alignDiffs
        (buildView lines_a line_diff.aS line_diff.aE
          (!options.consider_whitespace_changes)).content
        (buildView lines_b line_diff.bS line_diff.bE
          (!options.consider_whitespace_changes)).content
        (budgetOf options)).1).map
    (translateRegion
      (buildView lines_a line_diff.aS line_diff.aE
        (!options.consider_whitespace_changes))
      (buildView lines_b line_diff.bS line_diff.bE
        (!options.consider_whitespace_changes))),
   (alignDiffs
      (buildView lines_a line_diff.aS line_diff.aE
        (!options.consider_whitespace_changes)).content
      (buildView lines_b line_diff.bS line_diff.bE
        (!options.consider_whitespace_changes)).content
      (budgetOf options)).2)

/-- Modelled from the spec: the whitespace-only gap scan between two
consecutive refined regions — if the unchanged lines strictly between them
are whitespace-only on both sides but differ, one extra mapping covering
the gap is emitted. -/
def wsGapMappings (r1 r2 : SequenceDiff) (lines_a lines_b : List (List Char)) :
    List RangeMapping :=
  if ((lines_a.drop r1.aE).take (r2.aS - r1.aE)).all (fun l => l.all isWS) &&
      ((lines_b.drop r1.bE).take (r2.bS - r1.bE)).all (fun l => l.all isWS) &&
      !((lines_a.drop r1.aE).take (r2.aS - r1.aE) ==
        (lines_b.drop r1.bE).take (r2.bS - r1.bE)) then
    [⟨⟨⟨r1.aE, 0⟩, ⟨r2.aS, 0⟩⟩, ⟨⟨r1.bE, 0⟩, ⟨r2.bS, 0⟩⟩⟩]
  else []

/-- The extra whitespace mappings contributed after one region, which exist
only when whitespace changes are tracked and a next region follows. -/
def wsBetween (options : CharLevelOptions) (r1 : SequenceDiff)
    (rest : List SequenceDiff) (lines_a lines_b : List (List Char)) :
    List RangeMapping :=
  match rest with
  | [] => []
  | r2 :: _ =>
      if options.consider_whitespace_changes then
        wsGapMappings r1 r2 lines_a lines_b
      else []

/-- Modelled from the spec: the batch driver
(refine_all_diffs_char_level): refine each region in input order,
concatenate the results in order with the whitespace-gap extras
interleaved, and OR all the per-region timeout flags. -/
def refine_all_diffs_char_level (line_diffs : List SequenceDiff)
    (lines_a lines_b : List (List Char)) (options : CharLevelOptions) :
    List RangeMapping × Bool :=
  match line_diffs with
  | [] => ([], false)
  | r1 :: rest =>
      ((refine_diff_char_level r1 lines_a lines_b options).1 ++
        wsBetween options r1 rest lines_a lines_b ++
        (refine_all_diffs_char_level rest lines_a lines_b options).1,
       (refine_diff_char_level r1 lines_a lines_b options).2 ||
        (refine_all_diffs_char_level rest lines_a lines_b options).2)

/-! ### Position-mapping correctness -/

/-- Total character length represented by a line length table (content
lengths plus one newline between lines). -/
def totalLen : List Nat → Nat
  | [] => 0
  | [l] => l
  | l :: l2 :: ls => l + 1 + totalLen (l2 :: ls)

theorem joinLines_length : ∀ sl : List (List Char),
    (joinLines sl).length = totalLen (sl.map List.length)
  | [] => rfl
  | [l] => rfl
  | l :: l2 :: ls => by
      have ih := joinLines_length (l2 :: ls)
      show (l ++ '\n' :: joinLines (l2 :: ls)).length = _
      rw [List.length_append, List.length_cons, ih]
      simp only [List.map_cons, totalLen]
      omega

/-- Lexicographic order on positions. -/
def posLE (p q : Pos) : Prop :=
  p.line < q.line ∨ (p.line = q.line ∧ p.col ≤ q.col)

instance posLE.dec (p q : Pos) : Decidable (posLE p q) := by
  unfold posLE; infer_instance

/-- A valid position for a slice of lines starting at absolute line ls:
inside one of the lines with a column within that line (or the zero
position for an empty slice). -/
def PosOk (sl : List (List Char)) (ls : Nat) (p : Pos) : Prop :=
  ls ≤ p.line ∧
  ((p.line - ls < sl.length ∧ p.col ≤ (sl.getD (p.line - ls) []).length) ∨
   (sl = [] ∧ p.line = ls ∧ p.col = 0))

instance PosOk.dec (sl : List (List Char)) (ls : Nat) (p : Pos) :
    Decidable (PosOk sl ls p) := by
  unfold PosOk; infer_instance

theorem offToPos_ok : ∀ (lens : List Nat) (o : Nat), o ≤ totalLen lens →
    ((offToPos lens o).1 < lens.length ∧
     (offToPos lens o).2 ≤ lens.getD (offToPos lens o).1 0) ∨
    (lens = [] ∧ o = 0 ∧ offToPos lens o = (0, 0))
  | [], o, h => by
      right
      have ho : o = 0 := by
        simpa [totalLen] using h
      subst ho
      exact ⟨rfl, rfl, rfl⟩
  | [l], o, h => by
      left
      constructor
      · show (0 : Nat) < 1
        omega
      · show o ≤ [l].getD 0 0
        simpa [totalLen] using h
  | l :: l2 :: ls, o, h => by
      rw [offToPos]
      split
      · next ho =>
          left
          exact ⟨by simp, by simpa using ho⟩
      · next ho =>
          have h' : o - (l + 1) ≤ totalLen (l2 :: ls) := by
            simp only [totalLen] at h
            omega
          rcases offToPos_ok (l2 :: ls) (o - (l + 1)) h' with ⟨h1, h2⟩ | ⟨hnil, _, _⟩
          · left
            constructor
            · simpa using h1
            · simpa using h2
          · exact absurd hnil (by simp)

theorem offToPos_mono : ∀ (lens : List Nat) (o o' : Nat), o ≤ o' →
    (offToPos lens o).1 < (offToPos lens o').1 ∨
    ((offToPos lens o).1 = (offToPos lens o').1 ∧
     (offToPos lens o).2 ≤ (offToPos lens o').2)
  | [], o, o', h => Or.inr ⟨rfl, h⟩
  | [l], o, o', h => Or.inr ⟨rfl, h⟩
  | l :: l2 :: ls, o, o', h => by
      rw [offToPos, offToPos]
      by_cases ho : o ≤ l
      · by_cases ho' : o' ≤ l
        · rw [if_pos ho, if_pos ho']
          exact Or.inr ⟨rfl, h⟩
        · rw [if_pos ho, if_neg ho']
          left
          show (0 : Nat) < _ + 1
          omega
      · have ho' : ¬ o' ≤ l := by omega
        rw [if_neg ho, if_neg ho']
        rcases offToPos_mono (l2 :: ls) (o - (l + 1)) (o' - (l + 1))
          (by omega) with h1 | ⟨h1, h2⟩
        · left
          simpa using h1
        · right
          exact ⟨by simpa using h1, by simpa using h2⟩

theorem toPos_mono (v : CharView) {o o' : Nat} (h : o ≤ o') :
    posLE (toPos v o) (toPos v o') := by
  unfold toPos posLE
  rcases offToPos_mono v.lineLens (o + v.trimOff) (o' + v.trimOff)
    (by omega) with h1 | ⟨h1, h2⟩
  · left
    simpa using h1
  · right
    exact ⟨by simpa using h1, h2⟩

theorem buildView_lineLens (lines : List (List Char)) (ls le : Nat)
    (elide : Bool) :
    (buildView lines ls le elide).lineLens =
      ((lines.drop ls).take (le - ls)).map List.length ∧
    (buildView lines ls le elide).lineStart = ls := by
  unfold buildView
  split <;> exact ⟨rfl, rfl⟩

theorem dropTrail_length_le (l : List Char) :
    (dropTrail l).length ≤ l.length := by
  unfold dropTrail
  rw [List.length_reverse]
  calc (l.reverse.dropWhile isWS).length ≤ l.reverse.length :=
      List.Sublist.length_le (List.IsSuffix.sublist (List.dropWhile_suffix isWS))
    _ = l.length := List.length_reverse l

theorem buildView_off_le (lines : List (List Char)) (ls le : Nat)
    (elide : Bool) :
    (buildView lines ls le elide).trimOff +
      (buildView lines ls le elide).content.length ≤
      totalLen (buildView lines ls le elide).lineLens := by
  unfold buildView
  split
  · show ((joinLines _).takeWhile isWS).length + (dropTrail _).length ≤
      totalLen (List.map List.length _)
    rw [← joinLines_length]
    have h1 := dropTrail_length_le
      ((joinLines ((lines.drop ls).take (le - ls))).drop
        ((joinLines ((lines.drop ls).take (le - ls))).takeWhile isWS).length)
    have h2 : ((joinLines ((lines.drop ls).take (le - ls))).takeWhile isWS).length ≤
        (joinLines ((lines.drop ls).take (le - ls))).length :=
      List.Sublist.length_le <| List.IsPrefix.sublist <| List.takeWhile_prefix isWS
    rw [List.length_drop] at h1
    omega
  · show 0 + (joinLines _).length ≤ _
    rw [← joinLines_length]
    omega

theorem getD_map_length (sl : List (List Char)) :
    ∀ (i : Nat), i < sl.length →
      (sl.map List.length).getD i 0 = (sl.getD i []).length := by
  induction sl with
  | nil => intro i h; simp at h
  | cons l t ih =>
      intro i h
      cases i with
      | zero => rfl
      | succ k =>
          show (t.map List.length).getD k 0 = (t.getD k []).length
          exact ih k (by simpa using h)

theorem toPos_ok (lines : List (List Char)) (ls le : Nat) (elide : Bool)
    (off : Nat) (hoff : off ≤ (buildView lines ls le elide).content.length) :
    PosOk ((lines.drop ls).take (le - ls)) ls
      (toPos (buildView lines ls le elide) off) := by
  obtain ⟨hlens, hstart⟩ := buildView_lineLens lines ls le elide
  have hto : off + (buildView lines ls le elide).trimOff ≤
      totalLen (buildView lines ls le elide).lineLens := by
    have := buildView_off_le lines ls le elide
    omega
  unfold toPos
  rw [hstart, hlens]
  rw [hlens] at hto
  rcases offToPos_ok (((lines.drop ls).take (le - ls)).map List.length)
    (off + (buildView lines ls le elide).trimOff) hto with ⟨h1, h2⟩ | ⟨hnil, _, he⟩
  · rw [List.length_map] at h1
    constructor
    · show ls ≤ ls + _
      omega
    · left
      constructor
      · show ls + _ - ls < _
        omega
      · show (offToPos (((lines.drop ls).take (le - ls)).map List.length)
            (off + (buildView lines ls le elide).trimOff)).2 ≤ _
        rw [getD_map_length _ _ h1] at h2
        have hcl : ls + (offToPos (((lines.drop ls).take (le - ls)).map
            List.length) (off + (buildView lines ls le elide).trimOff)).1 - ls =
            (offToPos (((lines.drop ls).take (le - ls)).map List.length)
              (off + (buildView lines ls le elide).trimOff)).1 := by
          omega
        rw [hcl]
        exact h2
  · have hsl : (lines.drop ls).take (le - ls) = [] := List.map_eq_nil_iff.mp hnil
    rw [he]
    refine ⟨?_, Or.inr ⟨hsl, ?_, rfl⟩⟩
    · show ls ≤ ls + 0
      omega
    · show ls + 0 = ls
      omega

/-- Well-formedness of a mapping collection: sorted, non-overlapping, with
valid positions relative to the refined region's lines on both sides. -/
def MappingsWF (slA slB : List (List Char)) (lsA lsB : Nat)
    (ms : List RangeMapping) : Prop :=
  List.Chain' (fun m1 m2 => posLE m1.original.e m2.original.s ∧
    posLE m1.modified.e m2.modified.s) ms ∧
  ∀ m ∈ ms, posLE m.original.s m.original.e ∧
    posLE m.modified.s m.modified.e ∧
    PosOk slA lsA m.original.s ∧ PosOk slA lsA m.original.e ∧
    PosOk slB lsB m.modified.s ∧ PosOk slB lsB m.modified.e

theorem chain'_and {α : Type} {R S : α → α → Prop} :
    ∀ (l : List α), List.Chain' R l → List.Chain' S l →
      List.Chain' (fun x y => R x y ∧ S x y) l
  | [], _, _ => List.chain'_nil
  | [_], _, _ => List.chain'_singleton _
  | _ :: y :: l, hr, hs =>
      List.chain'_cons.mpr ⟨⟨(List.chain'_cons.mp hr).1, (List.chain'_cons.mp hs).1⟩,
        chain'_and (y :: l) (List.chain'_cons.mp hr).2 (List.chain'_cons.mp hs).2⟩

theorem translate_wf (lines_a lines_b : List (List Char)) (rd : SequenceDiff)
    (el : Bool) (fs : List DiffRegion)
    (hv : ValidSeq (buildView lines_a rd.aS rd.aE el).content.length
      (buildView lines_b rd.bS rd.bE el).content.length fs) :
    MappingsWF ((lines_a.drop rd.aS).take (rd.aE - rd.aS))
      ((lines_b.drop rd.bS).take (rd.bE - rd.bS)) rd.aS rd.bS
      (fs.map (translateRegion (buildView lines_a rd.aS rd.aE el)
        (buildView lines_b rd.bS rd.bE el))) := by
  obtain ⟨hca, hba, hcb, hbb⟩ := hv
  constructor
  · rw [List.chain'_map]
    refine List.Chain'.imp ?_ (chain'_and fs hca hcb)
    intro d1 d2 hrel
    exact ⟨toPos_mono _ hrel.1, toPos_mono _ hrel.2⟩
  · intro m hm
    obtain ⟨d, hd, rfl⟩ := List.mem_map.mp hm
    have hb1 := hba d hd
    have hb2 := hbb d hd
    refine ⟨toPos_mono _ hb1.1, toPos_mono _ hb2.1, ?_, ?_, ?_, ?_⟩
    · exact toPos_ok lines_a rd.aS rd.aE el d.a.s (le_trans hb1.1 hb1.2)
    · exact toPos_ok lines_a rd.aS rd.aE el d.a.e hb1.2
    · exact toPos_ok lines_b rd.bS rd.bE el d.b.s (le_trans hb2.1 hb2.2)
    · exact toPos_ok lines_b rd.bS rd.bE el d.b.e hb2.2

/-! ### Pipeline-level properties -/

theorem alignDiffs_valid (a b : List Char) (budget : Option Nat) :
    ValidSeq a.length b.length (alignDiffs a b budget).1 := by
  obtain ⟨⟨c1, c2⟩, ⟨c3, c4⟩, _⟩ :=
    derive_valid a b (alignChars a b budget).1 0 0
      (alignChars_matching a b budget) (Nat.zero_le _) (Nat.zero_le _)
  exact ⟨c1, c2, c3, c4⟩

theorem alignDiffs_gaps (a b : List Char) (budget : Option Nat) :
    gapsOf DiffRegion.a a 0 (alignDiffs a b budget).1 =
      gapsOf DiffRegion.b b 0 (alignDiffs a b budget).1 :=
  derive_gaps_eq a b (alignChars a b budget).1 0 0
    (alignChars_matching a b budget) (Nat.zero_le _) (Nat.zero_le _)

theorem optimizeSequenceDiffs_valid (a b : List Char) (ds : List DiffRegion)
    (h : ValidSeq a.length b.length ds) :
    ValidSeq a.length b.length (optimizeSequenceDiffs a b ds) := by
  obtain ⟨c1, c2, c3, c4⟩ := h
  obtain ⟨d1, d2, d3, d4, _, _⟩ := osdGo_valid a b ds 0 0 c1 c2 c3 c4
    (Nat.zero_le _) (Nat.zero_le _)
  exact ⟨d1, d2, d3, d4⟩

theorem optimizeSequenceDiffs_gaps (a b : List Char) (ds : List DiffRegion)
    (h : ValidSeq a.length b.length ds)
    (hg : gapsOf DiffRegion.a a 0 ds = gapsOf DiffRegion.b b 0 ds) :
    gapsOf DiffRegion.a a 0 (optimizeSequenceDiffs a b ds) =
      gapsOf DiffRegion.b b 0 (optimizeSequenceDiffs a b ds) := by
  obtain ⟨c1, c2, c3, c4⟩ := h
  exact osdGo_gaps a b ds 0 0 c1 c2 c3 c4 (Nat.zero_le _) (Nat.zero_le _) hg

theorem extendCore_valid
    (extL extR : List Char → List Char → Nat → Nat → DiffRegion → Nat)
    (a b : List Char) (ds : List DiffRegion)
    (h : ValidSeq a.length b.length ds) :
    ValidSeq a.length b.length
      (mergeAdj touchPred (wecGo extL extR a b 0 0 ds)) := by
  obtain ⟨c1, c2, c3, c4⟩ := h
  obtain ⟨d1, d2, d3, d4, _, _⟩ := wecGo_valid extL extR a b ds 0 0 c1 c2 c3 c4
    (Nat.zero_le _) (Nat.zero_le _)
  exact mergeAdj_valid touchPred a.length b.length _ ⟨d1, d2, d3, d4⟩

theorem extendCore_gaps
    (extL extR : List Char → List Char → Nat → Nat → DiffRegion → Nat)
    (a b : List Char) (ds : List DiffRegion)
    (h : ValidSeq a.length b.length ds)
    (hg : gapsOf DiffRegion.a a 0 ds = gapsOf DiffRegion.b b 0 ds) :
    gapsOf DiffRegion.a a 0 (mergeAdj touchPred (wecGo extL extR a b 0 0 ds)) =
      gapsOf DiffRegion.b b 0 (mergeAdj touchPred (wecGo extL extR a b 0 0 ds)) := by
  obtain ⟨c1, c2, c3, c4⟩ := h
  exact mergeAdj_gaps touchPred a b _
    (wecGo_gaps extL extR a b ds 0 0 c1 c2 c3 c4 (Nat.zero_le _) (Nat.zero_le _) hg)

theorem extendCore_cover
    (extL extR : List Char → List Char → Nat → Nat → DiffRegion → Nat)
    (a b : List Char) (ds : List DiffRegion)
    (h : ValidSeq a.length b.length ds) :
    ∀ d ∈ ds, ∃ d' ∈ mergeAdj touchPred (wecGo extL extR a b 0 0 ds),
      ContainedIn d d' := by
  intro d hd
  obtain ⟨c1, c2, c3, c4⟩ := h
  obtain ⟨d1, hm1, hc1⟩ := wecGo_cover extL extR a b ds 0 0 d hd
  obtain ⟨e1, e2, e3, e4, _, _⟩ := wecGo_valid extL extR a b ds 0 0 c1 c2 c3 c4
    (Nat.zero_le _) (Nat.zero_le _)
  obtain ⟨d2, hm2, hc2⟩ := mergeAdj_cover touchPred a.length b.length _
    ⟨e1, e2, e3, e4⟩ d1 hm1
  exact ⟨d2, hm2, hc1.trans hc2⟩

theorem maybeSubwords_valid (opts : CharLevelOptions) (a b : List Char)
    (ds : List DiffRegion) (h : ValidSeq a.length b.length ds) :
    ValidSeq a.length b.length (maybeSubwords opts a b ds) := by
  unfold maybeSubwords
  split
  · exact extendCore_valid subwordExtL subwordExtR a b ds h
  · exact h

theorem maybeSubwords_gaps (opts : CharLevelOptions) (a b : List Char)
    (ds : List DiffRegion) (h : ValidSeq a.length b.length ds)
    (hg : gapsOf DiffRegion.a a 0 ds = gapsOf DiffRegion.b b 0 ds) :
    gapsOf DiffRegion.a a 0 (maybeSubwords opts a b ds) =
      gapsOf DiffRegion.b b 0 (maybeSubwords opts a b ds) := by
  unfold maybeSubwords
  split
  · exact extendCore_gaps subwordExtL subwordExtR a b ds h hg
  · exact hg

theorem removeShortMatches_valid (la lb : Nat) (ds : List DiffRegion)
    (h : ValidSeq la lb ds) : ValidSeq la lb (removeShortMatches ds) :=
  mergeAdj_valid shortGapPred la lb ds h

theorem removeShortMatches_gaps (a b : List Char) (ds : List DiffRegion)
    (hg : gapsOf DiffRegion.a a 0 ds = gapsOf DiffRegion.b b 0 ds) :
    gapsOf DiffRegion.a a 0 (removeShortMatches ds) =
      gapsOf DiffRegion.b b 0 (removeShortMatches ds) :=
  mergeAdj_gaps shortGapPred a b ds hg

theorem removeVeryShort_valid (la lb : Nat) (ds : List DiffRegion)
    (h : ValidSeq la lb ds) :
    ValidSeq la lb (removeVeryShortMatchingTextBetweenLongDiffs ds) :=
  mergeFix_valid longPairPred la lb ds.length ds h

theorem removeVeryShort_gaps (a b : List Char) (ds : List DiffRegion)
    (hg : gapsOf DiffRegion.a a 0 ds = gapsOf DiffRegion.b b 0 ds) :
    gapsOf DiffRegion.a a 0 (removeVeryShortMatchingTextBetweenLongDiffs ds) =
      gapsOf DiffRegion.b b 0 (removeVeryShortMatchingTextBetweenLongDiffs ds) :=
  mergeFix_gaps longPairPred a b ds.length ds hg

theorem optimizeDiffs_valid (opts : CharLevelOptions) (a b : List Char)
    (ds : List DiffRegion) (h : ValidSeq a.length b.length ds) :
    ValidSeq a.length b.length (optimizeDiffs opts a b ds) :=
  removeVeryShort_valid _ _ _
    (removeShortMatches_valid _ _ _
      (maybeSubwords_valid opts a b _
        (extendCore_valid wordExtL wordExtR a b _
          (optimizeSequenceDiffs_valid a b ds h))))

theorem optimizeDiffs_gaps (opts : CharLevelOptions) (a b : List Char)
    (ds : List DiffRegion) (h : ValidSeq a.length b.length ds)
    (hg : gapsOf DiffRegion.a a 0 ds = gapsOf DiffRegion.b b 0 ds) :
    gapsOf DiffRegion.a a 0 (optimizeDiffs opts a b ds) =
      gapsOf DiffRegion.b b 0 (optimizeDiffs opts a b ds) := by
  have h1 := optimizeSequenceDiffs_valid a b ds h
  have g1 := optimizeSequenceDiffs_gaps a b ds h hg
  have h2 := extendCore_valid wordExtL wordExtR a b _ h1
  have g2 := extendCore_gaps wordExtL wordExtR a b _ h1 g1
  have h3 := maybeSubwords_valid opts a b _ h2
  have g3 := maybeSubwords_gaps opts a b _ h2 g2
  exact removeVeryShort_gaps a b _ (removeShortMatches_gaps a b _ g3)

/-! ### Behaviour on identical inputs -/

/-- The full diagonal matching (k, k), ..., offset pairs of length n. -/
def pairsFrom : Nat → Nat → Nat → Matching
  | _, _, 0 => []
  | ia, ib, n + 1 => (ia, ib) :: pairsFrom (ia + 1) (ib + 1) n

theorem lcsGo_self (a : List Char) :
    ∀ (zs : List Char) (ia ib : Nat),
      lcsGo a a ia ib zs zs = pairsFrom ia ib zs.length := by
  intro zs
  induction zs with
  | nil =>
      intro ia ib
      rw [lcsGo]
      rfl
  | cons z t ih =>
      intro ia ib
      rw [lcsGo, if_pos rfl]
      rw [ih (ia + 1) (ib + 1)]
      rfl

theorem derive_pairsFrom (la lb : Nat) :
    ∀ (n pa pb : Nat), pa + n = la → pb + n = lb →
      deriveRegions la lb pa pb (pairsFrom pa pb n) = [] := by
  intro n
  induction n with
  | zero =>
      intro pa pb ha hb
      rw [pairsFrom, deriveRegions, if_pos ⟨by omega, by omega⟩]
  | succ k ih =>
      intro pa pb ha hb
      rw [pairsFrom, deriveRegions, if_pos ⟨rfl, rfl⟩]
      exact ih (pa + 1) (pb + 1) (by omega) (by omega)

theorem snakeExt_self (a : List Char) :
    ∀ (n x : Nat) (m : Matching), x + n = a.length →
      snakeExt a a n x x m =
        (a.length, a.length, (pairsFrom x x n).reverse ++ m) := by
  intro n
  induction n with
  | zero =>
      intro x m hx
      rw [snakeExt]
      simp [pairsFrom]
      omega
  | succ k ih =>
      intro x m hx
      rw [snakeExt, if_pos ⟨by omega, by omega, rfl⟩]
      rw [ih (x + 1) ((x, x) :: m) (by omega)]
      rw [pairsFrom]
      simp

theorem myersRun_self (x : List Char) (budget : Option Nat) :
    myersRun x x budget = (pairsFrom 0 0 x.length, false) := by
  unfold myersRun
  rw [snakeExt_self x x.length 0 [] (by omega)]
  unfold myersStart
  rw [if_pos ⟨rfl, rfl⟩]
  simp

theorem alignDiffs_self (x : List Char) (budget : Option Nat) :
    alignDiffs x x budget = ([], false) := by
  unfold alignDiffs alignChars
  split
  · show (deriveRegions x.length x.length 0 0 (lcsIdx x x), false) = ([], false)
    unfold lcsIdx
    rw [lcsGo_self x x 0 0,
      derive_pairsFrom x.length x.length x.length 0 0 (by omega) (by omega)]
  · rw [myersRun_self]
    show (deriveRegions x.length x.length 0 0 (pairsFrom 0 0 x.length), false) = _
    rw [derive_pairsFrom x.length x.length x.length 0 0 (by omega) (by omega)]

theorem optimizeDiffs_nil (opts : CharLevelOptions) (a b : List Char) :
    optimizeDiffs opts a b [] = [] := by
  show removeVeryShortMatchingTextBetweenLongDiffs
    (removeShortMatches (maybeSubwords opts a b
      (extendDiffsToEntireWord a b (optimizeSequenceDiffs a b [])))) = []
  rw [show optimizeSequenceDiffs a b [] = [] from rfl]
  rw [show extendDiffsToEntireWord a b [] = [] from rfl]
  unfold maybeSubwords
  split
  · rw [show extendDiffsToSubwords a b [] = [] from rfl]
    rfl
  · rfl

theorem buildView_content_eq {lines_a lines_b : List (List Char)}
    {aS aE bS bE : Nat} (el : Bool)
    (h : (lines_a.drop aS).take (aE - aS) = (lines_b.drop bS).take (bE - bS)) :
    (buildView lines_a aS aE el).content = (buildView lines_b bS bE el).content := by
  unfold buildView
  cases el
  · show joinLines ((lines_a.drop aS).take (aE - aS)) =
      joinLines ((lines_b.drop bS).take (bE - bS))
    rw [h]
  · show dropTrail ((joinLines ((lines_a.drop aS).take (aE - aS))).drop
        ((joinLines ((lines_a.drop aS).take (aE - aS))).takeWhile isWS).length) =
      dropTrail ((joinLines ((lines_b.drop bS).take (bE - bS))).drop
        ((joinLines ((lines_b.drop bS).take (bE - bS))).takeWhile isWS).length)
    rw [h]

/-! ### The claims -/

/-- C1: for every refined region (any input pair, any deadline, any
options), concatenating in order the unchanged gaps and the side-A text of
each DiffRegion reconstructs exactly the side-A character content, likewise
for side B; and the complement spans outside the DiffRegions are
byte-identical across both views — both for the solver's raw output and
after the full Optimizer chain. -/
theorem c1_roundtrip_and_complement (a b : List Char) (budget : Option Nat)
    (opts : CharLevelOptions) :
    reconOf DiffRegion.a a 0 (alignDiffs a b budget).1 = a ∧
    reconOf DiffRegion.b b 0 (alignDiffs a b budget).1 = b ∧
    gapsOf DiffRegion.a a 0 (alignDiffs a b budget).1 =
      gapsOf DiffRegion.b b 0 (alignDiffs a b budget).1 ∧
    reconOf DiffRegion.a a 0 (optimizeDiffs opts a b (alignDiffs a b budget).1) = a ∧
    reconOf DiffRegion.b b 0 (optimizeDiffs opts a b (alignDiffs a b budget).1) = b ∧
    gapsOf DiffRegion.a a 0 (optimizeDiffs opts a b (alignDiffs a b budget).1) =
      gapsOf DiffRegion.b b 0 (optimizeDiffs opts a b (alignDiffs a b budget).1) := by
  have hv := alignDiffs_valid a b budget
  have hg := alignDiffs_gaps a b budget
  have hv' := optimizeDiffs_valid opts a b _ hv
  have hg' := optimizeDiffs_gaps opts a b _ hv hg
  obtain ⟨c1, c2, c3, c4⟩ := hv
  obtain ⟨e1, e2, e3, e4⟩ := hv'
  refine ⟨?_, ?_, hg, ?_, ?_, hg'⟩
  · rw [reconOf_drop DiffRegion.a a _ 0 (Nat.zero_le _) c1 c2 (Nat.zero_le _)]
    exact List.drop_zero a
  · rw [reconOf_drop DiffRegion.b b _ 0 (Nat.zero_le _) c3 c4 (Nat.zero_le _)]
    exact List.drop_zero b
  · rw [reconOf_drop DiffRegion.a a _ 0 (Nat.zero_le _) e1 e2 (Nat.zero_le _)]
    exact List.drop_zero a
  · rw [reconOf_drop DiffRegion.b b _ 0 (Nat.zero_le _) e3 e4 (Nat.zero_le _)]
    exact List.drop_zero b

/-- C2: every DiffRegion sequence produced by the Optimizer — after each
pass of its fixed chain — is sorted ascending and pairwise non-overlapping
on each side independently, provided the input satisfies the invariant. -/
theorem c2_optimizer_invariant (opts : CharLevelOptions) (a b : List Char)
    (ds : List DiffRegion) (h : ValidSeq a.length b.length ds) :
    ValidSeq a.length b.length (optimizeSequenceDiffs a b ds) ∧
    ValidSeq a.length b.length
      (extendDiffsToEntireWord a b (optimizeSequenceDiffs a b ds)) ∧
    ValidSeq a.length b.length
      (maybeSubwords opts a b
        (extendDiffsToEntireWord a b (optimizeSequenceDiffs a b ds))) ∧
    ValidSeq a.length b.length
      (removeShortMatches (maybeSubwords opts a b
        (extendDiffsToEntireWord a b (optimizeSequenceDiffs a b ds)))) ∧
    ValidSeq a.length b.length (optimizeDiffs opts a b ds) := by
  have h1 := optimizeSequenceDiffs_valid a b ds h
  have h2 := extendCore_valid wordExtL wordExtR a b _ h1
  have h3 := maybeSubwords_valid opts a b _ h2
  have h4 := removeShortMatches_valid a.length b.length _ h3
  exact ⟨h1, h2, h3, h4, removeVeryShort_valid _ _ _ h4⟩

/-- Witness for C2 at a concrete input. -/
theorem c2_optimizer_invariant_witness :
    ValidSeq (List.length ['x']) (List.length ['y'])
      (optimizeDiffs ⟨true, true, 0⟩ ['x'] ['y'] [⟨⟨0, 1⟩, ⟨0, 1⟩⟩]) :=
  (c2_optimizer_invariant ⟨true, true, 0⟩ ['x'] ['y'] [⟨⟨0, 1⟩, ⟨0, 1⟩⟩]
    (by decide)).2.2.2.2

/-- C3: on inputs that are identical at the line level, refine_one returns
an empty RangeMappingCollection and timed_out = false. -/
theorem c3_identical_inputs (line_diff : SequenceDiff)
    (lines_a lines_b : List (List Char)) (options : CharLevelOptions)
    (h : (lines_a.drop line_diff.aS).take (line_diff.aE - line_diff.aS) =
      (lines_b.drop line_diff.bS).take (line_diff.bE - line_diff.bS)) :
    refine_diff_char_level line_diff lines_a lines_b options = ([], false) := by
  have hc := buildView_content_eq (!options.consider_whitespace_changes) h
  unfold refine_diff_char_level
  rw [hc, alignDiffs_self]
  show ((optimizeDiffs options _ _ [] ).map _, false) = ([], false)
  rw [optimizeDiffs_nil]
  rfl

/-- Witness for C3 at a concrete identical input. -/
theorem c3_identical_inputs_witness :
    refine_diff_char_level ⟨0, 1, 0, 1⟩ [['a']] [['a']] ⟨true, false, 0⟩ =
      ([], false) :=
  c3_identical_inputs ⟨0, 1, 0, 1⟩ [['a']] [['a']] ⟨true, false, 0⟩ (by decide)

/-- C4: refinement always returns a well-formed result — the mappings are
sorted, pairwise non-overlapping and carry valid positions for the refined
region on both sides — on every path, in particular when the solver's
deadline elapsed; the timeout is reported only through the returned
boolean, never as an error. -/
theorem c4_timeout_wellformed (line_diff : SequenceDiff)
    (lines_a lines_b : List (List Char)) (options : CharLevelOptions) :
    MappingsWF ((lines_a.drop line_diff.aS).take (line_diff.aE - line_diff.aS))
      ((lines_b.drop line_diff.bS).take (line_diff.bE - line_diff.bS))
      line_diff.aS line_diff.bS
      (refine_diff_char_level line_diff lines_a lines_b options).1 :=
  translate_wf lines_a lines_b line_diff (!options.consider_whitespace_changes) _
    (optimizeDiffs_valid options _ _ _
      (alignDiffs_valid _ _ (budgetOf options)))

/-- C5: the Short-match removal pass and the Long-diff gap merge pass are
idempotent — re-running either on its own output returns it unchanged. -/
theorem c5_idempotence (ds : List DiffRegion) :
    removeShortMatches (removeShortMatches ds) = removeShortMatches ds ∧
    removeVeryShortMatchingTextBetweenLongDiffs
        (removeVeryShortMatchingTextBetweenLongDiffs ds) =
      removeVeryShortMatchingTextBetweenLongDiffs ds := by
  constructor
  · exact mergeAdj_idem_of_start shortGapPred shortGapPred_start ds
  · exact mergeFix_self longPairPred _ _
      (mergeFix_fixed longPairPred ds.length ds (le_refl _))

/-- C6: the Word extension pass never shrinks a region — every input region
is contained in an output region — and never makes regions overlap: the
sort/non-overlap invariant is preserved. -/
theorem c6_word_extension (a b : List Char) (ds : List DiffRegion)
    (h : ValidSeq a.length b.length ds) :
    (∀ d ∈ ds, ∃ d' ∈ extendDiffsToEntireWord a b ds, ContainedIn d d') ∧
    ValidSeq a.length b.length (extendDiffsToEntireWord a b ds) :=
  ⟨extendCore_cover wordExtL wordExtR a b ds h,
   extendCore_valid wordExtL wordExtR a b ds h⟩

/-- Witness for C6 at a concrete input. -/
theorem c6_word_extension_witness :
    ValidSeq (List.length ['x', 'y']) (List.length ['x', 'z'])
      (extendDiffsToEntireWord ['x', 'y'] ['x', 'z'] [⟨⟨1, 2⟩, ⟨1, 2⟩⟩]) :=
  (c6_word_extension ['x', 'y'] ['x', 'z'] [⟨⟨1, 2⟩, ⟨1, 2⟩⟩] (by decide)).2

/-- C7: short-match removal merges exactly the consecutive pairs whose
strictly-intervening unchanged gap is at most 2 characters: a single
isolated DiffRegion is never merged or extended; after the pass no adjacent
pair with a gap of at most 2 remains (completeness); a sequence with no
such pair is returned unchanged; and every boundary between a pair whose
gap exceeds 2 survives into the output (merges happen only across short
gaps). -/
theorem c7_short_match_removal :
    (∀ d : DiffRegion, removeShortMatches [d] = [d]) ∧
    (∀ ds : List DiffRegion,
      List.Chain' (fun u v => shortGapPred u v = false)
        (removeShortMatches ds)) ∧
    (∀ ds : List DiffRegion,
      List.Chain' (fun u v => shortGapPred u v = false) ds →
      removeShortMatches ds = ds) ∧
    (∀ (ds : List DiffRegion) (d1 d2 : DiffRegion),
      (d1, d2) ∈ adjPairs ds → shortGapPred d1 d2 = false →
      ∃ q ∈ adjPairs (removeShortMatches ds),
        q.1.a.e = d1.a.e ∧ q.1.b.e = d1.b.e ∧
        q.2.a.s = d2.a.s ∧ q.2.b.s = d2.b.s) := by
  refine ⟨fun _ => rfl, removeShortMatches_noAdj,
    mergeAdj_of_noAdj shortGapPred, ?_⟩
  intro ds d1 d2 hmem hfalse
  cases ds with
  | nil => exact absurd hmem (List.not_mem_nil _)
  | cons d t =>
      exact mergeFold_boundary shortGapPred (fun _ _ _ => rfl) t d d1 d2
        hmem hfalse

/-- Witness for C7: two regions separated by a 3-character unchanged gap
are left distinct. -/
theorem c7_short_match_removal_witness :
    removeShortMatches [⟨⟨0, 1⟩, ⟨0, 1⟩⟩, ⟨⟨4, 5⟩, ⟨4, 5⟩⟩] =
      [⟨⟨0, 1⟩, ⟨0, 1⟩⟩, ⟨⟨4, 5⟩, ⟨4, 5⟩⟩] :=
  c7_short_match_removal.2.2.1 [⟨⟨0, 1⟩, ⟨0, 1⟩⟩, ⟨⟨4, 5⟩, ⟨4, 5⟩⟩]
    (List.chain'_cons.mpr ⟨by decide, List.chain'_singleton _⟩)

/-- C8: below the fixed small-input threshold of 500 combined characters,
the Alignment Solver takes the exact dynamic-programming LCS path and its
result — with timed_out = false — does not depend on the supplied
deadline. -/
theorem c8_small_input_dp (a b : List Char) (budget budget' : Option Nat)
    (h : a.length + b.length < SMALL_INPUT_THRESHOLD) :
    alignDiffs a b budget =
      (deriveRegions a.length b.length 0 0 (lcsIdx a b), false) ∧
    alignDiffs a b budget = alignDiffs a b budget' := by
  constructor
  · show (deriveRegions a.length b.length 0 0 (alignChars a b budget).1,
      (alignChars a b budget).2) = _
    unfold alignChars
    rw [if_pos h]
  · show (deriveRegions a.length b.length 0 0 (alignChars a b budget).1,
        (alignChars a b budget).2) =
      (deriveRegions a.length b.length 0 0 (alignChars a b budget').1,
        (alignChars a b budget').2)
    unfold alignChars
    rw [if_pos h, if_pos h]

/-- Witness for C8 at a concrete small input. -/
theorem c8_small_input_dp_witness :
    alignDiffs ['a'] ['b'] (some 1) =
      (deriveRegions (List.length ['a']) (List.length ['b']) 0 0
        (lcsIdx ['a'] ['b']), false) :=
  (c8_small_input_dp ['a'] ['b'] (some 1) none (by decide)).1

/-- C9: the batch driver refines each region in input order; its
any_timed_out output is the OR of every per-region timeout flag, the
per-region mappings appear concatenated in order inside the output, and
when whitespace changes are not tracked the output is exactly that
concatenation. -/
theorem c9_refine_all (line_diffs : List SequenceDiff)
    (lines_a lines_b : List (List Char)) (options : CharLevelOptions) :
    (refine_all_diffs_char_level line_diffs lines_a lines_b options).2 =
      line_diffs.foldr (fun r acc =>
        (refine_diff_char_level r lines_a lines_b options).2 || acc) false ∧
    List.Sublist
      ((line_diffs.map (fun r =>
        (refine_diff_char_level r lines_a lines_b options).1)).flatten)
      (refine_all_diffs_char_level line_diffs lines_a lines_b options).1 ∧
    (options.consider_whitespace_changes = false →
      (refine_all_diffs_char_level line_diffs lines_a lines_b options).1 =
        (line_diffs.map (fun r =>
          (refine_diff_char_level r lines_a lines_b options).1)).flatten) := by
  induction line_diffs with
  | nil =>
      exact ⟨rfl, List.Sublist.refl _, fun _ => rfl⟩
  | cons r1 rest ih =>
      refine ⟨?_, ?_, ?_⟩
      · show ((refine_diff_char_level r1 lines_a lines_b options).2 ||
          (refine_all_diffs_char_level rest lines_a lines_b options).2) = _
        rw [ih.1]
        rfl
      · show List.Sublist
          ((refine_diff_char_level r1 lines_a lines_b options).1 ++
            (rest.map (fun r =>
              (refine_diff_char_level r lines_a lines_b options).1)).flatten)
          ((refine_diff_char_level r1 lines_a lines_b options).1 ++
            wsBetween options r1 rest lines_a lines_b ++
            (refine_all_diffs_char_level rest lines_a lines_b options).1)
        rw [List.append_assoc]
        apply List.Sublist.append_left
        exact List.Sublist.trans ih.2.1 (List.sublist_append_right _ _)
      · intro hcw
        have hws : wsBetween options r1 rest lines_a lines_b = [] := by
          unfold wsBetween
          cases rest with
          | nil => rfl
          | cons r2 t =>
              rw [hcw]
              simp
        show (refine_diff_char_level r1 lines_a lines_b options).1 ++
          wsBetween options r1 rest lines_a lines_b ++
          (refine_all_diffs_char_level rest lines_a lines_b options).1 = _
        rw [hws, ih.2.2 hcw]
        simp

/-- Witness for C9 with whitespace tracking off. -/
theorem c9_refine_all_witness :
    (refine_all_diffs_char_level [⟨0, 1, 0, 1⟩] [['a']] [['a']]
        ⟨false, false, 0⟩).1 =
      (([⟨0, 1, 0, 1⟩] : List SequenceDiff).map (fun r =>
        (refine_diff_char_level r [['a']] [['a']] ⟨false, false, 0⟩).1)).flatten :=
  (c9_refine_all [⟨0, 1, 0, 1⟩] [['a']] [['a']] ⟨false, false, 0⟩).2.2 rfl

end VD
